import Mathlib

/-!
# MapReduceWordOccurences: the counting table and the partition/scan algorithm

A shallow embedding of `src/src/chash.c` and `src/src/main.c`.

Conventions of the embedding

* A byte is a `Nat` below 256; a buffer or key is a `List Nat`.
* `uint32_t` values are `Nat` reduced modulo `2 ^ 32` at every operation that can
  wrap; `long` values are `Int` (all indices handled by the program are bounded by
  the file size, itself a `long`, so no `long` operation wraps).
* A pointer that may be `NULL` is an `Option`.
* A singly linked chain of `node`s is the `List node` of its nodes from the head.
* A `pthread_mutex_t` is a `Bool`: `true` while the mutex is held.
* `malloc` of a `node` succeeds or fails as told by a Boolean argument `allocOk`.
* A call that never returns (a lock that is never released, a division by zero
  that kills the process) is `none`.
-/

namespace MapReduce

/-! ## chash.h / chash.c -/

/-- Wrap-around of `uint32_t` arithmetic. -/
def u32 (n : Nat) : Nat := n % 2 ^ 32

/-- Entry of a chain (`struct s_node`), the `next` pointer being the list structure.
`key` holds the stored bytes without the extra terminating zero byte. -/
structure node where
  key : List Nat
  key_size : Nat
  val : Nat
  hash : Nat
deriving DecidableEq, Repr

/-- Table `struct s_chash`: `rows[i]` is the chain of row `i`, `row_locks[i]` tells
whether the mutex of row `i` is held. -/
structure chash where
  size : Nat
  rows : List (List node)
  row_locks : List Bool
deriving DecidableEq, Repr

/-- Pair `struct s_keyValPair`: `key` is the byte content of the entry's key buffer
(the C pointer aliases the node's buffer), `val` its count. -/
structure keyValPair where
  key : List Nat
  val : Nat
deriving DecidableEq, Repr

/-- Conversion of a plain `char` holding byte `b` to `uint32_t` as done by
`hash += key[i]`: plain `char` is signed on the reference platform, so a byte of
128 or more is sign-extended. -/
def charToU32 (b : Nat) : Nat :=
  if b % 256 < 128 then b % 256 else b % 256 + (2 ^ 32 - 256)

/-- One round of the loop body of `hash`. -/
def hashRound (h b : Nat) : Nat :=
  let h1 := u32 (h + charToU32 b)
  let h2 := u32 (h1 + u32 (h1 <<< 10))
  h2 ^^^ (h2 >>> 6)

/-- Function `hash` of chash.c (Jenkins one-at-a-time) over the first `len` bytes
of `key`. The loop counter is a `uint32_t`, so the embedding is exact for
`len < 2 ^ 32`. -/
def hash (key : List Nat) (len : Nat) : Nat :=
  let h0 := (key.take len).foldl hashRound 0
  let h1 := u32 (h0 + u32 (h0 <<< 3))
  let h2 := h1 ^^^ (h1 >>> 11)
  u32 (h2 + u32 (h2 <<< 15))

/-- Function `isNodeMatchForKey`: equal hash, equal size and `memcmp` of `key_size`
bytes equal to zero. (The chain walk never passes a null node.) -/
def isNodeMatchForKey (n : node) (key : Option (List Nat)) (key_size hashVal : Nat) : Bool :=
  match key with
  | none => false
  | some k =>
    if hashVal ≠ n.hash ∨ key_size ≠ n.key_size then false
    else if n.key.take key_size = k.take key_size then true
    else false

/-- Function `chash_create`, allocation succeeding: `size` empty rows with
initialised (free) locks. -/
def chash_create (size : Nat) : chash :=
  { size := size, rows := List.replicate size [], row_locks := List.replicate size false }

/-- Function `chash_create_node`: `none` when the `malloc` of the node fails. -/
def chash_create_node (key : List Nat) (key_size hashVal init_val : Nat) (allocOk : Bool) :
    Option node :=
  if allocOk then
    some { key := key.take key_size, key_size := key_size, val := init_val, hash := hashVal }
  else none

/-- Walk of a non-empty row in `chash_setAndInc` (the `while` loop and the two
branches after it): the first matching node gets `val++`; without a match a new
node is linked after the last node. `none` when the node allocation fails, in
which case the chain is untouched. -/
def walkRow (key : List Nat) (key_size hashVal : Nat) (allocOk : Bool) :
    List node → Option (List node)
  | [] => (chash_create_node key key_size hashVal 1 allocOk).map fun n => [n]
  | n :: rest =>
    if isNodeMatchForKey n (some key) key_size hashVal then
      some ({ n with val := u32 (n.val + 1) } :: rest)
    else (walkRow key key_size hashVal allocOk rest).map fun r => n :: r

/-- Set the mutex of row `row` to `held`. -/
def setLock (t : chash) (row : Nat) (held : Bool) : chash :=
  { t with row_locks := t.row_locks.set row held }

/-- Store `chain` as the chain of row `row`. -/
def setRow (t : chash) (row : Nat) (chain : List node) : chash :=
  { t with rows := t.rows.set row chain }

/-- Function `chash_setAndInc`. The result is `none` when the call does not return:
with a table of no row, where `hashVal % pcHash->size` of line 108 divides by zero
and the process is killed, or when `pthread_mutex_lock` finds the row's mutex held
(nobody releases it in a sequential run); otherwise the returned `bool` and the
table afterwards. -/
def chash_setAndInc (pcHash : Option chash) (key : Option (List Nat)) (key_size : Nat)
    (allocOk : Bool) : Option (Bool × Option chash) :=
  match pcHash, key with
  | none, _ => some (false, none)
  | some t, none => some (false, some t)
  | some t, some k =>
    if key_size = 0 then some (false, some t)
    else if t.size = 0 then none
    else
      let hashVal := hash k key_size
      let row := hashVal % t.size
      if t.row_locks.getD row false then none
      else
        let t1 := setLock t row true
        let chain := t1.rows.getD row []
        if chain = [] then
          match chash_create_node k key_size hashVal 1 allocOk with
          | none => some (false, some t1)
          | some n => some (true, some (setLock (setRow t1 row [n]) row false))
        else
          match walkRow k key_size hashVal allocOk chain with
          | none => some (false, some t1)
          | some chain1 => some (true, some (setLock (setRow t1 row chain1) row false))

/-- Function `chash_getKeyVals`: the pairs of all entries, row by row and along
each chain; the returned count is the length of the list (a `uint32_t`, exact
below `2 ^ 32` entries). A null table gives no pair. -/
def chash_getKeyVals (pcHash : Option chash) : List keyValPair :=
  match pcHash with
  | none => []
  | some t => (t.rows.take t.size).flatten.map fun n => { key := n.key, val := n.val }

/-- Successive calls `chash_setAndInc(t, key, strlen key)` for the keys of a list,
every node allocation succeeding: the returned values in call order and the table
afterwards; `none` when a call never returns. -/
def setAndIncAll : Option chash → List (List Nat) → Option (List Bool × Option chash)
  | t, [] => some ([], t)
  | t, k :: ks =>
    match chash_setAndInc t (some k) k.length true with
    | none => none
    | some (b, t1) =>
      match setAndIncAll t1 ks with
      | none => none
      | some (bs, t2) => some (b :: bs, t2)

/-! ## Well-formed tables -/

/-- A node of row `r` of a table with `size` rows is well formed: its buffer has
`key_size` bytes, at least one, its stored hash is the hash of its key, and that
hash selects row `r`. -/
def nodeOK (size r : Nat) (n : node) : Prop :=
  n.key.length = n.key_size ∧ n.key_size ≠ 0 ∧ n.hash = hash n.key n.key_size ∧
    n.hash % size = r

/-- Structural invariant of a table: one chain and one mutex per row, at least one
row, well-formed nodes, and no two nodes of a row with the same key bytes. -/
structure TableOK (t : chash) : Prop where
  rows_len : t.rows.length = t.size
  locks_len : t.row_locks.length = t.size
  pos : 0 < t.size
  node_ok : ∀ (r : Nat) (c : List node), t.rows[r]? = some c → ∀ n ∈ c, nodeOK t.size r n
  nodup : ∀ (r : Nat) (c : List node), t.rows[r]? = some c → (c.map node.key).Nodup

/-- No mutex of the table is held. -/
def locksFree (t : chash) : Prop := ∀ r, t.row_locks.getD r false = false

/-- The node `chash_create_node` builds for a call with `key`, `key_size`. -/
def newNode (key : List Nat) (key_size : Nat) : node :=
  { key := key.take key_size, key_size := key_size, val := 1, hash := hash key key_size }

/-- The node `n` after `val++`. -/
def incNode (n : node) : node := { n with val := u32 (n.val + 1) }

/-- Relation between the chain `c` of the key's row before a successful call for the
key bytes `kk` and the chain `c1` after it: the first node with key `kk` got `val++`,
or no node has key `kk` and the new node `nn` is linked at the tail. -/
def RowStep (kk : List Nat) (nn : node) (c c1 : List node) : Prop :=
  (∃ pre n post, c = pre ++ n :: post ∧ n.key = kk ∧ (∀ m ∈ pre, m.key ≠ kk) ∧
      c1 = pre ++ incNode n :: post) ∨
  ((∀ m ∈ c, m.key ≠ kk) ∧ c1 = c ++ [nn])

/-- The entries of `t` count the keys of the call sequence `keys`: every node holds
a key of the sequence with its number of occurrences modulo `2 ^ 32`, and every key
of the sequence has a node in the row its hash selects. -/
def Counts (t : chash) (keys : List (List Nat)) : Prop :=
  (∀ (r : Nat) (c : List node), t.rows[r]? = some c →
      ∀ n ∈ c, n.key ∈ keys ∧ n.val = keys.count n.key % 2 ^ 32) ∧
  (∀ k ∈ keys, ∃ c, t.rows[hash k k.length % t.size]? = some c ∧ ∃ n ∈ c, n.key = k)

/-- Tables reachable from `chash_create` (at least one row) by returning
`chash_setAndInc` calls, whatever the arguments and the outcome of the node
allocation; a non-null `key` points to at least `key_size` bytes. -/
inductive Reachable : chash → Prop
  | create (size : Nat) (h : 1 ≤ size) : Reachable (chash_create size)
  | step (t : chash) (key : Option (List Nat)) (key_size : Nat) (allocOk b : Bool)
      (t1 : chash) (ht : Reachable t) (hkey : ∀ k, key = some k → key_size ≤ k.length)
      (hcall : chash_setAndInc (some t) key key_size allocOk = some (b, some t1)) :
      Reachable t1


/-! ## main.c -/

/-- Descriptor `struct s_thread_info` of a worker, without the shared `input` and
`hash` pointers, which are passed separately. -/
structure thread_info where
  thread_id : Int
  start_idx : Int
  end_idx : Int
  last_idx : Int
deriving DecidableEq, Repr

/-- Launch loop of `main` (lines 134 to 153): the descriptor of each worker in
launch order. `fuel` bounds the number of iterations; `partition` passes the loop
bound itself. -/
def launchLoop (lSize li_num_threads last_idx : Int) : Nat → Int → Int → List thread_info
  | 0, _, _ => []
  | fuel + 1, thread_num, start_idx =>
    if thread_num < li_num_threads then
      let end_idx := start_idx + lSize / li_num_threads - 1
      let end_idx := if thread_num = li_num_threads - 1 then last_idx else end_idx
      { thread_id := thread_num, start_idx := start_idx, end_idx := end_idx,
        last_idx := last_idx } :: launchLoop lSize li_num_threads last_idx fuel
          (thread_num + 1) (end_idx + 1)
    else []

/-- Lines 120 to 153 of `main`: clamp of the worker count to the buffer length and
launch loop. `main` rejects `li_num_threads ≤ 0` and `lSize ≤ 0` beforehand, so
both operands of the division are positive, where C division and `/` agree. -/
def partition (lSize li_num_threads : Int) : List thread_info :=
  let n := if li_num_threads > lSize then lSize else li_num_threads
  launchLoop lSize n (lSize - 1) n.toNat 0 0

/-- Function `isWordChar`: `isalnum` in the "C" locale, which is the locale of the
program since it never calls `setlocale`. -/
def isWordChar (c : Nat) : Bool :=
  (48 ≤ c && c ≤ 57) || (65 ≤ c && c ≤ 90) || (97 ≤ c && c ≤ 122)

/-- Read of `input[i]`. An index outside the buffer (undefined behaviour in C) reads
as the separator byte 0. -/
def readAt (input : List Nat) (i : Int) : Nat :=
  if 0 ≤ i then input.getD i.toNat 0 else 0

/-- First loop of `WorkThread` (line 207): advance `start_idx` over word characters
while it is below `end_idx`. -/
def fixStart (input : List Nat) (end_idx : Int) : Nat → Int → Int
  | 0, start_idx => start_idx
  | fuel + 1, start_idx =>
    if start_idx < end_idx && isWordChar (readAt input start_idx) then
      fixStart input end_idx fuel (start_idx + 1)
    else start_idx

/-- Main loop of `WorkThread` (lines 221 to 266) from `curr_idx` with the state
`inWord`, `word_start`: the spans `(word_start, word_end)` passed to
`chash_setAndInc`, in call order, every call returning `true`. -/
def scanLoop (input : List Nat) (end_idx last_idx : Int) : Nat → Int → Bool → Int →
    List (Int × Int)
  | 0, _, _, _ => []
  | fuel + 1, curr_idx, inWord, word_start =>
    if curr_idx ≤ last_idx then
      let isWordCh := isWordChar (readAt input curr_idx)
      if curr_idx > end_idx && !inWord then []
      else if !inWord && isWordCh then
        scanLoop input end_idx last_idx fuel (curr_idx + 1) true curr_idx
      else if inWord && !isWordCh then
        (word_start, curr_idx - 1) ::
          scanLoop input end_idx last_idx fuel (curr_idx + 1) false word_start
      else if inWord && curr_idx == last_idx then
        (word_start, curr_idx) ::
          scanLoop input end_idx last_idx fuel (curr_idx + 1) false word_start
      else scanLoop input end_idx last_idx fuel (curr_idx + 1) inWord word_start
    else []

/-- Start index of the main loop of `WorkThread` (lines 205 to 213): the assigned
start, advanced by `fixStart` when it and the byte before it are word characters.
The `if` of line 211 has an empty body and changes nothing. -/
def adjustedStart (ti : thread_info) (input : List Nat) : Int :=
  if ti.start_idx ≠ 0 && isWordChar (readAt input ti.start_idx) &&
      isWordChar (readAt input (ti.start_idx - 1)) then
    fixStart input ti.end_idx (ti.end_idx - ti.start_idx).toNat ti.start_idx
  else ti.start_idx

/-- Function `WorkThread`, seen through its calls: the spans `(word_start, word_end)`
for which it calls `chash_setAndInc(word_hash, &input[word_start],
word_end - word_start + 1)`, in call order, as long as every call returns `true`. -/
def WorkThread (ti : thread_info) (input : List Nat) : List (Int × Int) :=
  scanLoop input ti.end_idx ti.last_idx
    (ti.last_idx - adjustedStart ti input + 1).toNat (adjustedStart ti input) false 0

/-- Bytes `input[s.1 .. s.2]` of a span, the key a call of the worker passes. -/
def spanBytes (input : List Nat) (s : Int × Int) : List Nat :=
  (input.drop s.1.toNat).take (s.2 - s.1 + 1).toNat

/-- Word tokens recorded by one worker. -/
def workerTokens (ti : thread_info) (input : List Nat) : List (List Nat) :=
  (WorkThread ti input).map (spanBytes input)

/-- Word tokens recorded by all workers of a list of descriptors, worker by worker. -/
def allTokens (tis : List thread_info) (input : List Nat) : List (List Nat) :=
  (tis.map fun ti => workerTokens ti input).flatten

/-- Closed form of the descriptor the launch loop builds for worker `i` out of `n`
on a buffer of `lSize` bytes. -/
def rangeOf (lSize n i : Int) : thread_info :=
  { thread_id := i, start_idx := i * (lSize / n),
    end_idx := if i = n - 1 then lSize - 1 else (i + 1) * (lSize / n) - 1,
    last_idx := lSize - 1 }

/-- Table of 4 rows holding the single key "aqaa". -/
def tableAqaa : chash :=
  { size := 4,
    rows := [[], [], [], [{ key := [97, 113, 97, 97], key_size := 4, val := 1, hash := 415159071 }]],
    row_locks := [false, false, false, false] }

/-- C library `strcmp` on the buffers of two keys, a buffer being given by its bytes
before the terminating zero byte the table appends: the difference of the first
pair of differing bytes, read as `unsigned char`, the comparison ending at a zero
byte. Only the sign of the result is specified by the C standard. -/
def strcmp : List Nat → List Nat → Int
  | [], [] => 0
  | [], y :: _ => 0 - (y : Int)
  | x :: _, [] => (x : Int)
  | x :: xs, y :: ys =>
    if x = y then (if x = 0 then 0 else strcmp xs ys) else (x : Int) - (y : Int)

/-- Function `cmpFunc`: `strcmp` of the two keys. -/
def cmpFunc (a b : keyValPair) : Int := strcmp a.key b.key

/-- Insertion of `x` before the first element it does not compare greater than. -/
def qsortInsert {α : Type} (cmp : α → α → Int) (x : α) : List α → List α
  | [] => [x]
  | y :: ys => if cmp x y ≤ 0 then x :: y :: ys else y :: qsortInsert cmp x ys

/-- C library `qsort`, as an insertion sort driven by the comparison function. The C
standard leaves the order of elements that compare equal open; the keys `main`
sorts are pairwise distinct, so every conforming `qsort` returns this list. -/
def qsort {α : Type} (cmp : α → α → Int) : List α → List α
  | [] => []
  | x :: xs => qsortInsert cmp x (qsort cmp xs)

/-- Decimal digits of `v` as bytes, the output of `printf("%u")`. -/
def decimal (v : Nat) : List Nat := (Nat.toDigits 10 v).map Char.toNat

/-- Line `printf("%s=%u\n", key, val)`: the key up to its first zero byte, `=`, the
count in decimal and a newline. -/
def printLine (p : keyValPair) : List Nat :=
  p.key.takeWhile (fun b => b ≠ 0) ++ [61] ++ decimal p.val ++ [10]

/-- Lines 162 to 174 of `main`: enumerate, sort with `cmpFunc`, print one line per
pair. (With no entry at all `main` leaves `kvs` unassigned and prints nothing.) -/
def main_output (pcHash : Option chash) : List (List Nat) :=
  (qsort cmpFunc (chash_getKeyVals pcHash)).map printLine

/-- Strict byte-wise lexicographic order on keys: at the first difference the
smaller byte decides; a proper beginning of a key comes before it. -/
def lexLt : List Nat → List Nat → Bool
  | _, [] => false
  | [], _ :: _ => true
  | x :: xs, y :: ys => x < y || (x == y && lexLt xs ys)

/-! ## Workers acting on the table -/

/-- Effect of a worker on the table: its calls
`chash_setAndInc(word_hash, &input[word_start], word_end - word_start + 1)` one after
the other, node allocations succeeding; the worker exits at the first call that
returns `false`. `none` when a call never returns. -/
def applyCalls (input : List Nat) : List (Int × Int) → Option chash → Option (Option chash)
  | [], t => some t
  | s :: rest, t =>
    match chash_setAndInc t (some (input.drop s.1.toNat)) (s.2 - s.1 + 1).toNat true with
    | none => none
    | some (true, t1) => applyCalls input rest t1
    | some (false, t1) => some t1

/-- The workers of a list of descriptors run to completion one after the other, in
launch order, on the shared table. -/
def runWorkers (input : List Nat) : List thread_info → Option chash → Option (Option chash)
  | [], t => some t
  | ti :: rest, t =>
    match applyCalls input (WorkThread ti input) t with
    | none => none
    | some t1 => runWorkers input rest t1

/-- A span lies in the buffer and is not empty. -/
def validSpan (input : List Nat) (s : Int × Int) : Prop :=
  0 ≤ s.1 ∧ s.1 ≤ s.2 ∧ s.2 < (input.length : Int)

instance (input : List Nat) (s : Int × Int) : Decidable (validSpan input s) := by
  unfold validSpan; infer_instance

/-- The pairs a table counting `keys` should enumerate: every distinct key once, with
its number of occurrences modulo `2 ^ 32`. -/
def expectedPairs (keys : List (List Nat)) : List keyValPair :=
  keys.dedup.map fun k => { key := k, val := keys.count k % 2 ^ 32 }

/-- Buffer of scenario B, "hello, world! hello." -/
def bufferB : List Nat :=
  [104, 101, 108, 108, 111, 44, 32, 119, 111, 114, 108, 100, 33, 32, 104, 101, 108, 108, 111, 46]

/-- Buffer of scenario A, "abc abc" -/
def bufferA : List Nat := [97, 98, 99, 32, 97, 98, 99]

/-- One round of the one-at-a-time hash in arithmetic modulo `2 ^ 32`, the byte `b`
taken as its value 0..255: `h += b; h += h << 10; h ^= h >> 6`. -/
def jenkinsRound (h b : Nat) : Nat :=
  let h1 := (h + b) % 2 ^ 32
  let h2 := (h1 + (h1 <<< 10)) % 2 ^ 32
  h2 ^^^ (h2 >>> 6)

/-- Jenkins one-at-a-time hash of a byte sequence in arithmetic modulo `2 ^ 32`, as
the specification words it: from 0, a round per byte, then `h += h << 3;
h ^= h >> 11; h += h << 15`. -/
def jenkinsOneAtATime (key : List Nat) : Nat :=
  let h0 := key.foldl jenkinsRound 0
  let h1 := (h0 + (h0 <<< 3)) % 2 ^ 32
  let h2 := h1 ^^^ (h1 >>> 11)
  (h2 + (h2 <<< 15)) % 2 ^ 32

/-- Table `tableAqaa` after a call for "elue", a key with the hash of "aqaa". -/
def tableAqaaElue : chash :=
  { size := 4,
    rows := [[], [], [], [{ key := [97, 113, 97, 97], key_size := 4, val := 1, hash := 415159071 },
                         { key := [101, 108, 117, 101], key_size := 4, val := 1, hash := 415159071 }]],
    row_locks := [false, false, false, false] }

/-! ## Runs of word characters -/

/-- The byte at index `i` of the buffer is a word character. -/
def isWordAt (input : List Nat) (i : Int) : Bool := isWordChar (readAt input i)

/-- The indices `s..e` hold word characters only and the word ends at `e`: `e` is the
last index of the buffer or the byte after `e` is a separator. -/
def closesAt (input : List Nat) (last_idx s e : Int) : Prop :=
  s ≤ e ∧ e ≤ last_idx ∧ (∀ i, s ≤ i → i ≤ e → isWordAt input i = true) ∧
    (e = last_idx ∨ isWordAt input (e + 1) = false)

/-! ## Buffer indices read by a worker -/

/-- Indices read by the condition `s != 0 && isWordChar(input[s]) &&
isWordChar(input[s-1])` of lines 205 and 211, evaluated left to right with
short-circuit: `input[s]` only when `s != 0`, `input[s-1]` only when moreover
`input[s]` is a word character. -/
def guardReads (input : List Nat) (s : Int) : List Int :=
  if s ≠ 0 then s :: (if isWordChar (readAt input s) then [s - 1] else []) else []

/-- Indices read by the loop of line 207: `input[start_idx]` is read while
`start_idx < end_idx`. -/
def fixStartReads (input : List Nat) (end_idx : Int) : Nat → Int → List Int
  | 0, _ => []
  | fuel + 1, start_idx =>
    if start_idx < end_idx then
      start_idx :: (if isWordChar (readAt input start_idx) then
        fixStartReads input end_idx fuel (start_idx + 1) else [])
    else []

/-- Indices read by the main loop (line 223): `input[curr_idx]` at every iteration,
the iterations being those of `scanLoop`. -/
def scanLoopReads (input : List Nat) (end_idx last_idx : Int) : Nat → Int → Bool → List Int
  | 0, _, _ => []
  | fuel + 1, curr_idx, inWord =>
    if curr_idx ≤ last_idx then
      let isWordCh := isWordChar (readAt input curr_idx)
      curr_idx ::
        (if curr_idx > end_idx && !inWord then []
        else if !inWord && isWordCh then
          scanLoopReads input end_idx last_idx fuel (curr_idx + 1) true
        else if inWord && !isWordCh then
          scanLoopReads input end_idx last_idx fuel (curr_idx + 1) false
        else if inWord && curr_idx == last_idx then
          scanLoopReads input end_idx last_idx fuel (curr_idx + 1) false
        else scanLoopReads input end_idx last_idx fuel (curr_idx + 1) inWord)
    else []

/-- Indices of `input` read by `WorkThread` itself, in order: the condition of line
205, the loop of line 207 when the condition holds, the condition of line 211
(after `start_idx == end_idx`), the main loop. -/
def WorkThreadReads (ti : thread_info) (input : List Nat) : List Int :=
  guardReads input ti.start_idx ++
  (if ti.start_idx ≠ 0 && isWordChar (readAt input ti.start_idx) &&
      isWordChar (readAt input (ti.start_idx - 1)) then
    fixStartReads input ti.end_idx (ti.end_idx - ti.start_idx).toNat ti.start_idx
   else []) ++
  (if adjustedStart ti input = ti.end_idx then guardReads input (adjustedStart ti input)
   else []) ++
  scanLoopReads input ti.end_idx ti.last_idx
    (ti.last_idx - adjustedStart ti input + 1).toNat (adjustedStart ti input) false

/-! ## Maximal runs of word characters -/

/-- The indices `s..e` of the buffer form a maximal run of word characters: they lie
in the buffer, hold word characters only, the byte before `s` (if any) and the byte
after `e` (if any) are separators. -/
def isRunB (input : List Nat) (s e : Nat) : Bool :=
  decide (s ≤ e) && decide (e < input.length) &&
  (List.range input.length).all
    (fun i => !(decide (s ≤ i) && decide (i ≤ e)) || isWordChar (input.getD i 0)) &&
  (s == 0 || !isWordChar (input.getD (s - 1) 0)) &&
  (e + 1 == input.length || !isWordChar (input.getD (e + 1) 0))

/-- The maximal runs of word characters of a buffer, as spans `(first, last)` with
every index pair of the buffer tried. -/
def maximalRuns (input : List Nat) : List (Int × Int) :=
  (((List.range input.length).product (List.range input.length)).filter
    fun p => isRunB input p.1 p.2).map fun p => ((p.1 : Int), (p.2 : Int))

/-! ## Lemmas on the chain walk -/

theorem hash_take (k : List Nat) (ks : Nat) : hash (k.take ks) ks = hash k ks := by
  simp [hash, List.take_take]

theorem walkRow_cases (k : List Nat) (ks : Nat) (a : Bool) :
    ∀ c c1, walkRow k ks (hash k ks) a c = some c1 →
      (∃ pre n post, c = pre ++ n :: post ∧
          isNodeMatchForKey n (some k) ks (hash k ks) = true ∧
          (∀ m ∈ pre, isNodeMatchForKey m (some k) ks (hash k ks) = false) ∧
          c1 = pre ++ incNode n :: post) ∨
      ((∀ m ∈ c, isNodeMatchForKey m (some k) ks (hash k ks) = false) ∧ a = true ∧
          c1 = c ++ [newNode k ks]) := by
  intro c
  induction c with
  | nil =>
    intro c1 h
    right
    cases a <;> simp [walkRow, chash_create_node] at h
    subst h
    simp [newNode]
  | cons n rest ih =>
    intro c1 h
    by_cases hm : isNodeMatchForKey n (some k) ks (hash k ks) = true
    · left
      simp only [walkRow, hm, if_true, Option.some.injEq] at h
      exact ⟨[], n, rest, rfl, hm, by simp, by simp [← h, incNode]⟩
    · simp only [walkRow, hm] at h
      simp only [Bool.false_eq_true, if_false, Option.map_eq_some'] at h
      obtain ⟨r1, hr1, rfl⟩ := h
      have hm' : isNodeMatchForKey n (some k) ks (hash k ks) = false := by simpa using hm
      rcases ih r1 hr1 with ⟨pre, m, post, hc, hmm, hpre, hc1⟩ | ⟨hall, ha, hc1⟩
      · left
        refine ⟨n :: pre, m, post, by simp [hc], hmm, ?_, by simp [hc1]⟩
        intro x hx
        rcases List.mem_cons.1 hx with rfl | hx
        · exact hm'
        · exact hpre x hx
      · right
        refine ⟨?_, ha, by simp [hc1]⟩
        intro x hx
        rcases List.mem_cons.1 hx with rfl | hx
        · exact hm'
        · exact hall x hx

theorem walkRow_alloc (k : List Nat) (ks h : Nat) :
    ∀ c, ∃ c1, walkRow k ks h true c = some c1 := by
  intro c
  induction c with
  | nil => simp [walkRow, chash_create_node]
  | cons n rest ih =>
    obtain ⟨r1, hr1⟩ := ih
    by_cases hm : isNodeMatchForKey n (some k) ks h = true
    · simp [walkRow, hm]
    · simp [walkRow, hm, hr1]

theorem match_iff {size r : Nat} {n : node} (hn : nodeOK size r n) (k : List Nat) (ks : Nat)
    (hks : ks ≤ k.length) :
    isNodeMatchForKey n (some k) ks (hash k ks) = true ↔ n.key = k.take ks := by
  obtain ⟨h1, _, h3, _⟩ := hn
  constructor
  · intro h
    simp only [isNodeMatchForKey] at h
    split_ifs at h with ha hb
    have hsz : ks = n.key_size := by
      by_contra hne; exact ha (Or.inr hne)
    rw [← hb, List.take_of_length_le (by omega)]
  · intro h
    have hlen : n.key_size = ks := by
      rw [← h1, h, List.length_take]; omega
    have hh : hash k ks = n.hash := by
      rw [h3, h, hlen, hash_take]
    simp [isNodeMatchForKey, hh, hlen, h, List.take_take]

theorem set_set_free (l : List Bool) (r : Nat) (h : l.getD r false = false) :
    (l.set r true).set r false = l := by
  rw [List.set_set]
  apply List.ext_getElem?
  intro j
  rw [List.getElem?_set]
  by_cases hj : r = j
  · subst hj
    rw [List.getD_eq_getElem?_getD] at h
    by_cases hl : r < l.length
    · simp only [hl, if_true]
      rw [List.getElem?_eq_getElem hl] at h ⊢
      simpa using h.symm
    · simp [hl, List.getElem?_eq_none (not_lt.1 hl)]
  · simp [hj]

/-- Unfolding of `chash_setAndInc` on a non-null table with rows and key of non-zero size:
the empty-row branch and the walk branch coincide with `walkRow`. -/
theorem setAndInc_eq (t : chash) (k : List Nat) (ks : Nat) (a : Bool) (hks : ks ≠ 0)
    (hpos : t.size ≠ 0) :
    chash_setAndInc (some t) (some k) ks a =
      if t.row_locks.getD (hash k ks % t.size) false = true then none
      else match walkRow k ks (hash k ks) a (t.rows.getD (hash k ks % t.size) []) with
        | none => some (false, some (setLock t (hash k ks % t.size) true))
        | some c1 => some (true, some
            { size := t.size, rows := t.rows.set (hash k ks % t.size) c1,
              row_locks := t.row_locks }) := by
  unfold chash_setAndInc
  simp only [hks, hpos, if_false]
  by_cases hl : t.row_locks.getD (hash k ks % t.size) false = true
  · rw [if_pos hl, if_pos hl]
  · rw [if_neg hl, if_neg hl]
    have hfree : t.row_locks.getD (hash k ks % t.size) false = false := by simpa using hl
    by_cases hc : t.rows.getD (hash k ks % t.size) [] = []
    · have hc1 : (setLock t (hash k ks % t.size) true).rows.getD (hash k ks % t.size) [] = [] := hc
      rw [if_pos hc1, hc]
      cases a
      · simp only [chash_create_node, walkRow, Bool.false_eq_true, if_false, Option.map_none']
      · simp only [chash_create_node, walkRow, if_true, Option.map_some', setLock, setRow,
          set_set_free _ _ hfree]
    · have hc1 : ¬ (setLock t (hash k ks % t.size) true).rows.getD (hash k ks % t.size) [] = [] := hc
      rw [if_neg hc1]
      show (match walkRow k ks (hash k ks) a (t.rows.getD (hash k ks % t.size) []) with
        | none => _ | some chain1 => _) = _
      cases walkRow k ks (hash k ks) a (t.rows.getD (hash k ks % t.size) []) with
      | none => rfl
      | some c1 => simp only [setLock, setRow, set_set_free _ _ hfree]
/-! ## One successful call, seen on the chain of the key's row -/

theorem RowStep.keys_nodup {kk : List Nat} {nn : node} {c c1 : List node}
    (h : RowStep kk nn c c1) (hnn : nn.key = kk) (hc : (c.map node.key).Nodup) :
    (c1.map node.key).Nodup := by
  rcases h with ⟨pre, n, post, rfl, _, _, rfl⟩ | ⟨hall, rfl⟩
  · simpa [incNode] using hc
  · rw [List.map_append, List.nodup_append]
    refine ⟨hc, by simp, ?_⟩
    intro x hx hx'
    simp only [List.map_cons, List.map_nil, List.mem_singleton] at hx'
    obtain ⟨m, hm, rfl⟩ := List.mem_map.1 hx
    exact hall m hm (hx'.trans hnn)

theorem RowStep.mem_old {kk : List Nat} {nn : node} {c c1 : List node}
    (h : RowStep kk nn c c1) {n : node} (hn : n ∈ c) : ∃ n1 ∈ c1, n1.key = n.key := by
  rcases h with ⟨pre, m, post, rfl, _, _, rfl⟩ | ⟨_, rfl⟩
  · rcases List.mem_append.1 hn with hp | hp
    · exact ⟨n, by simp [hp], rfl⟩
    · rcases List.mem_cons.1 hp with rfl | hp
      · exact ⟨incNode n, by simp, rfl⟩
      · exact ⟨n, by simp [hp], rfl⟩
  · exact ⟨n, by simp [hn], rfl⟩

theorem RowStep.mem_key {kk : List Nat} {nn : node} {c c1 : List node}
    (h : RowStep kk nn c c1) (hnn : nn.key = kk) : ∃ n1 ∈ c1, n1.key = kk := by
  rcases h with ⟨pre, m, post, rfl, hm, _, rfl⟩ | ⟨_, rfl⟩
  · exact ⟨incNode m, by simp, hm⟩
  · exact ⟨nn, by simp, hnn⟩

/-- Every node of the chain after the call is an untouched node with another key, the
incremented node of key `kk`, or the new node when no node had key `kk`. -/
theorem RowStep.mem_new {kk : List Nat} {nn : node} {c c1 : List node}
    (h : RowStep kk nn c c1) (hc : (c.map node.key).Nodup) {n1 : node} (hn1 : n1 ∈ c1) :
    (n1 ∈ c ∧ n1.key ≠ kk) ∨ (∃ n ∈ c, n.key = kk ∧ n1 = incNode n) ∨
      ((∀ m ∈ c, m.key ≠ kk) ∧ n1 = nn) := by
  rcases h with ⟨pre, m, post, rfl, hm, hpre, rfl⟩ | ⟨hall, rfl⟩
  · rcases List.mem_append.1 hn1 with hp | hp
    · exact Or.inl ⟨by simp [hp], hpre _ hp⟩
    · rcases List.mem_cons.1 hp with rfl | hp
      · exact Or.inr (Or.inl ⟨m, by simp, hm, rfl⟩)
      · left
        refine ⟨by simp [hp], ?_⟩
        intro hk
        rw [List.map_append, List.map_cons, List.nodup_append] at hc
        have h2 := (List.nodup_cons.1 hc.2.1).1
        exact h2 (List.mem_map.2 ⟨n1, hp, by rw [hk, hm]⟩)
  · rcases List.mem_append.1 hn1 with hp | hp
    · exact Or.inl ⟨hp, hall _ hp⟩
    · exact Or.inr (Or.inr ⟨hall, by simpa using hp⟩)

theorem TableOK.row_lt {t : chash} (h : TableOK t) (x : Nat) : x % t.size < t.rows.length := by
  rw [h.rows_len]; exact Nat.mod_lt _ h.pos

/-- Effect of a call with a valid key on a well-formed table whose row mutex is free
and whose node allocation succeeds: it returns `true`, only the chain of the key's
row changes, and it changes as `RowStep` says. -/
theorem setAndInc_step (t : chash) (hok : TableOK t) (k : List Nat) (ks : Nat) (hks : ks ≠ 0)
    (hle : ks ≤ k.length) (hfree : t.row_locks.getD (hash k ks % t.size) false = false) :
    ∃ c c1, t.rows[hash k ks % t.size]? = some c ∧
      chash_setAndInc (some t) (some k) ks true = some (true, some
        { size := t.size, rows := t.rows.set (hash k ks % t.size) c1,
          row_locks := t.row_locks }) ∧
      RowStep (k.take ks) (newNode k ks) c c1 := by
  have hlt := hok.row_lt (hash k ks)
  have hrow : t.rows[hash k ks % t.size]? = some (t.rows[hash k ks % t.size]) :=
    List.getElem?_eq_getElem hlt
  have hgetD : t.rows.getD (hash k ks % t.size) [] = t.rows[hash k ks % t.size] := by
    rw [List.getD_eq_getElem?_getD, hrow]; rfl
  obtain ⟨c1, hc1⟩ := walkRow_alloc k ks (hash k ks) (t.rows[hash k ks % t.size])
  refine ⟨_, c1, hrow, ?_, ?_⟩
  · rw [setAndInc_eq t k ks true hks (Nat.pos_iff_ne_zero.1 hok.pos),
      if_neg (by rw [hfree]; exact Bool.false_ne_true), hgetD, hc1]
  · have hnode := hok.node_ok _ _ hrow
    rcases walkRow_cases k ks true _ _ hc1 with ⟨pre, n, post, hc, hm, hpre, hc1'⟩ | ⟨hall, _, hc1'⟩
    · left
      refine ⟨pre, n, post, hc, ?_, ?_, hc1'⟩
      · exact (match_iff (hnode n (by rw [hc]; simp)) k ks hle).1 hm
      · intro m hm' hk
        have := (match_iff (hnode m (by rw [hc]; simp [hm'])) k ks hle).2 hk
        rw [hpre m hm'] at this
        exact Bool.false_ne_true this
    · right
      refine ⟨?_, hc1'⟩
      intro m hm' hk
      have := (match_iff (hnode m hm') k ks hle).2 hk
      rw [hall m hm'] at this
      exact Bool.false_ne_true this
/-! ## Preservation of the table invariants -/

theorem chash_create_ok (size : Nat) (h : 0 < size) : TableOK (chash_create size) where
  rows_len := by simp [chash_create]
  locks_len := by simp [chash_create]
  pos := h
  node_ok := by
    intro r c hc n hn
    simp only [chash_create, List.getElem?_replicate] at hc
    split_ifs at hc
    cases hc
    cases hn
  nodup := by
    intro r c hc
    simp only [chash_create, List.getElem?_replicate] at hc
    split_ifs at hc
    cases hc
    simp

theorem chash_create_free (size : Nat) : locksFree (chash_create size) := by
  intro r
  simp only [chash_create, List.getD_eq_getElem?_getD, List.getElem?_replicate]
  split_ifs <;> rfl

theorem newNode_ok (size : Nat) (k : List Nat) (ks : Nat) (hks : ks ≠ 0) (hle : ks ≤ k.length) :
    nodeOK size (hash k ks % size) (newNode k ks) := by
  refine ⟨?_, hks, ?_, rfl⟩
  · simp [newNode, List.length_take, hle]
  · simp [newNode, hash_take]

theorem RowStep.node_ok {size r : Nat} {kk : List Nat} {nn : node} {c c1 : List node}
    (h : RowStep kk nn c c1) (hnn : nodeOK size r nn) (hc : ∀ n ∈ c, nodeOK size r n) :
    ∀ n ∈ c1, nodeOK size r n := by
  intro n1 hn1
  rcases h with ⟨pre, m, post, rfl, _, _, rfl⟩ | ⟨_, rfl⟩
  · rcases List.mem_append.1 hn1 with hp | hp
    · exact hc _ (by simp [hp])
    · rcases List.mem_cons.1 hp with rfl | hp
      · exact hc m (by simp)
      · exact hc _ (by simp [hp])
  · rcases List.mem_append.1 hn1 with hp | hp
    · exact hc _ hp
    · have : n1 = nn := by simpa using hp
      rw [this]; exact hnn

/-- Replacing the chain of row `r` by a chain of well-formed nodes with distinct keys
keeps the table well formed. -/
theorem TableOK.set_row {t : chash} (hok : TableOK t) (r : Nat) (c1 : List node)
    (hnode : ∀ n ∈ c1, nodeOK t.size r n) (hnd : (c1.map node.key).Nodup) :
    TableOK { size := t.size, rows := t.rows.set r c1, row_locks := t.row_locks } where
  rows_len := by simp [hok.rows_len]
  locks_len := hok.locks_len
  pos := hok.pos
  node_ok := by
    intro r' c hc n hn
    simp only [List.getElem?_set] at hc
    split_ifs at hc with h1 h2
    · cases hc; subst h1; exact hnode n hn
    · exact hok.node_ok r' c hc n hn
  nodup := by
    intro r' c hc
    simp only [List.getElem?_set] at hc
    split_ifs at hc with h1 h2
    · cases hc; exact hnd
    · exact hok.nodup r' c hc

/-- A successful call keeps the table well formed. -/
theorem setAndInc_step_ok (t : chash) (hok : TableOK t) (k : List Nat) (ks : Nat)
    (hks : ks ≠ 0) (hle : ks ≤ k.length) {c c1 : List node}
    (hc : t.rows[hash k ks % t.size]? = some c)
    (hstep : RowStep (k.take ks) (newNode k ks) c c1) :
    TableOK { size := t.size, rows := t.rows.set (hash k ks % t.size) c1,
              row_locks := t.row_locks } := by
  apply hok.set_row
  · exact hstep.node_ok (newNode_ok t.size k ks hks hle) (hok.node_ok _ _ hc)
  · exact hstep.keys_nodup rfl (hok.nodup _ _ hc)

theorem Counts_create (size : Nat) : Counts (chash_create size) [] := by
  constructor
  · intro r c hc n hn
    simp only [chash_create, List.getElem?_replicate] at hc
    split_ifs at hc
    cases hc
    cases hn
  · intro k hk; cases hk

theorem count_snoc_self (keys : List (List Nat)) (k : List Nat) :
    (keys ++ [k]).count k = keys.count k + 1 := by
  simp [List.count_append]

theorem count_snoc_ne (keys : List (List Nat)) {k k1 : List Nat} (h : k1 ≠ k) :
    (keys ++ [k]).count k1 = keys.count k1 := by
  simp [List.count_append, List.count_singleton, h.symm]

/-- A successful call for key `k` turns a table counting `keys` into one counting
`keys ++ [k]`. -/
theorem Counts_step (t : chash) (hok : TableOK t) (keys : List (List Nat)) (hcnt : Counts t keys)
    (k : List Nat) {c c1 : List node}
    (hc : t.rows[hash k k.length % t.size]? = some c)
    (hstep : RowStep k (newNode k k.length) c c1) :
    Counts { size := t.size, rows := t.rows.set (hash k k.length % t.size) c1,
             row_locks := t.row_locks } (keys ++ [k]) := by
  have hlt : hash k k.length % t.size < t.rows.length := hok.row_lt _
  have hnnk : (newNode k k.length).key = k := by simp [newNode]
  constructor
  · intro r' c' hc' n hn
    simp only [List.getElem?_set] at hc'
    split_ifs at hc' with h1
    · cases hc'
      rcases hstep.mem_new (hok.nodup _ _ hc) hn with ⟨hnc, hne⟩ | ⟨m, hm, hmk, rfl⟩ | ⟨hall, rfl⟩
      · obtain ⟨h1, h2⟩ := hcnt.1 _ _ hc n hnc
        exact ⟨by simp [h1], by rw [count_snoc_ne _ hne]; exact h2⟩
      · obtain ⟨_, h2⟩ := hcnt.1 _ _ hc m hm
        refine ⟨by simp [incNode, hmk], ?_⟩
        simp only [incNode, hmk, count_snoc_self, u32, h2]
        simp [Nat.add_mod]
      · refine ⟨by simp [hnnk], ?_⟩
        have hnot : k ∉ keys := by
          intro hk
          obtain ⟨c2, hc2, n, hn2, hnk⟩ := hcnt.2 k hk
          rw [hc] at hc2; cases hc2
          exact hall n hn2 hnk
        rw [hnnk, count_snoc_self, List.count_eq_zero.2 hnot]
        simp [newNode]
    · obtain ⟨h1', h2'⟩ := hcnt.1 _ _ hc' n hn
      have hne : n.key ≠ k := by
        intro hk
        obtain ⟨e1, _, e3, e4⟩ := hok.node_ok _ _ hc' n hn
        apply h1
        rw [← e4, e3, ← e1, hk]
      exact ⟨by simp [h1'], by rw [count_snoc_ne _ hne]; exact h2'⟩
  · intro k1 hk1
    show ∃ c', (t.rows.set (hash k k.length % t.size) c1)[hash k1 k1.length % t.size]? = some c' ∧ _
    rcases List.mem_append.1 hk1 with hk1 | hk1
    · obtain ⟨c2, hc2, n, hn2, hnk⟩ := hcnt.2 k1 hk1
      by_cases hr : hash k k.length % t.size = hash k1 k1.length % t.size
      · rw [← hr] at hc2 ⊢
        rw [hc] at hc2; cases hc2
        obtain ⟨n1, hn1, hk⟩ := hstep.mem_old hn2
        exact ⟨c1, by simp [List.getElem?_set, hlt], n1, hn1, hk.trans hnk⟩
      · exact ⟨c2, by rw [List.getElem?_set_ne hr]; exact hc2, n, hn2, hnk⟩
    · have : k1 = k := by simpa using hk1
      subst this
      obtain ⟨n1, hn1, hk⟩ := hstep.mem_key hnnk
      exact ⟨c1, by simp [List.getElem?_set, hlt], n1, hn1, hk⟩
/-! ## Sequences of calls and enumeration -/

/-- A sequence of calls with non-empty keys on a well-formed table with free locks
that counts `done`: every call returns `true` and the final table counts
`done ++ keys`. -/
theorem setAndIncAll_spec : ∀ (keys done : List (List Nat)) (t : chash),
    TableOK t → locksFree t → Counts t done → (∀ k ∈ keys, k ≠ []) →
    ∃ t1, setAndIncAll (some t) keys = some (List.replicate keys.length true, some t1) ∧
      TableOK t1 ∧ locksFree t1 ∧ Counts t1 (done ++ keys) ∧ t1.size = t.size := by
  intro keys
  induction keys with
  | nil =>
    intro done t hok hfree hcnt _
    exact ⟨t, rfl, hok, hfree, by simpa using hcnt, rfl⟩
  | cons k ks ih =>
    intro done t hok hfree hcnt hne
    have hk : k.length ≠ 0 := by
      have := hne k (by simp)
      simpa using this
    obtain ⟨c, c1, hc, hcall, hstep⟩ :=
      setAndInc_step t hok k k.length hk le_rfl (hfree _)
    rw [List.take_length] at hstep
    have hok1 := setAndInc_step_ok t hok k k.length hk le_rfl hc
      (by rw [List.take_length]; exact hstep)
    have hcnt1 := Counts_step t hok done hcnt k hc hstep
    obtain ⟨t2, hrun, hok2, hfree2, hcnt2, hsz⟩ :=
      ih (done ++ [k]) _ hok1 hfree hcnt1 (fun x hx => hne x (by simp [hx]))
    refine ⟨t2, ?_, hok2, hfree2, by simpa using hcnt2, hsz⟩
    simp only [setAndIncAll, hcall, hrun, List.length_cons, List.replicate_succ]

/-- Enumeration of a well-formed table lists pairwise distinct keys. -/
theorem getKeyVals_nodup (t : chash) (hok : TableOK t) :
    ((chash_getKeyVals (some t)).map keyValPair.key).Nodup := by
  simp only [chash_getKeyVals, List.map_map]
  rw [List.take_of_length_le (by rw [hok.rows_len])]
  have hmap : List.map (keyValPair.key ∘ fun n : node => ({ key := n.key, val := n.val } : keyValPair))
      t.rows.flatten = (t.rows.map (List.map node.key)).flatten := by
    rw [← List.map_flatten]; rfl
  rw [hmap, List.nodup_flatten]
  constructor
  · intro l hl
    obtain ⟨c, hc, rfl⟩ := List.mem_map.1 hl
    obtain ⟨r, hr⟩ := List.mem_iff_getElem?.1 hc
    exact hok.nodup r c hr
  · rw [List.pairwise_map, List.pairwise_iff_getElem]
    intro i j hi hj hij x hx hx'
    obtain ⟨n, hn, rfl⟩ := List.mem_map.1 hx
    obtain ⟨m, hm, hmk⟩ := List.mem_map.1 hx'
    obtain ⟨e1, _, e3, e4⟩ := hok.node_ok i _ (List.getElem?_eq_getElem hi) n hn
    obtain ⟨f1, _, f3, f4⟩ := hok.node_ok j _ (List.getElem?_eq_getElem hj) m hm
    have : i = j := by
      rw [← e4, ← f4, e3, f3, ← e1, ← f1, hmk]
    omega

/-- Membership in the enumeration of a table. -/
theorem mem_getKeyVals (t : chash) (hok : TableOK t) (p : keyValPair) :
    p ∈ chash_getKeyVals (some t) ↔
      ∃ (r : Nat) (c : List node), t.rows[r]? = some c ∧ ∃ n ∈ c, n.key = p.key ∧ n.val = p.val := by
  simp only [chash_getKeyVals]
  rw [List.take_of_length_le (by rw [hok.rows_len])]
  constructor
  · intro h
    obtain ⟨n, hn, rfl⟩ := List.mem_map.1 h
    obtain ⟨c, hc, hnc⟩ := List.mem_flatten.1 hn
    obtain ⟨r, hr⟩ := List.mem_iff_getElem?.1 hc
    exact ⟨r, c, hr, n, hnc, rfl, rfl⟩
  · rintro ⟨r, c, hr, n, hn, hk, hv⟩
    refine List.mem_map.2 ⟨n, List.mem_flatten.2 ⟨c, List.mem_iff_getElem?.2 ⟨r, hr⟩, hn⟩, ?_⟩
    cases p; simp_all

/-- The enumeration of a table that counts `keys` holds exactly the pairs
(key of the sequence, number of its occurrences modulo `2 ^ 32`). -/
theorem getKeyVals_counts (t : chash) (hok : TableOK t) (keys : List (List Nat))
    (hcnt : Counts t keys) (p : keyValPair) :
    p ∈ chash_getKeyVals (some t) ↔ p.key ∈ keys ∧ p.val = keys.count p.key % 2 ^ 32 := by
  rw [mem_getKeyVals t hok]
  constructor
  · rintro ⟨r, c, hr, n, hn, hk, hv⟩
    obtain ⟨h1, h2⟩ := hcnt.1 r c hr n hn
    rw [← hk, ← hv]; exact ⟨h1, h2⟩
  · rintro ⟨hk, hv⟩
    obtain ⟨c, hc, n, hn, hnk⟩ := hcnt.2 _ hk
    refine ⟨_, c, hc, n, hn, hnk, ?_⟩
    rw [hv, ← hnk]; exact (hcnt.1 _ c hc n hn).2

/-- C1: on a table created with `rowCount ≥ 1`, every finite sequence of
`chash_setAndInc` calls with non-empty keys (node allocation succeeding) returns
`true` at every call, and `chash_getKeyVals` then lists pairwise distinct keys and
holds the pair `(k, v)` exactly when `k` is a key of the sequence and `v` is the
number of occurrences of `k` in the sequence modulo `2 ^ 32`; for the empty
sequence the list is empty. -/
theorem C1_enumerate_counts (rowCount : Nat) (keys : List (List Nat)) (hrows : 1 ≤ rowCount)
    (hkeys : ∀ k ∈ keys, k ≠ []) :
    ∃ t1, setAndIncAll (some (chash_create rowCount)) keys =
        some (List.replicate keys.length true, some t1) ∧
      ((chash_getKeyVals (some t1)).map keyValPair.key).Nodup ∧
      (∀ p, p ∈ chash_getKeyVals (some t1) ↔
        p.key ∈ keys ∧ p.val = keys.count p.key % 2 ^ 32) ∧
      (keys = [] → chash_getKeyVals (some t1) = []) := by
  obtain ⟨t1, hrun, hok, _, hcnt, _⟩ :=
    setAndIncAll_spec keys [] (chash_create rowCount) (chash_create_ok rowCount hrows)
      (chash_create_free rowCount) (Counts_create rowCount) hkeys
  rw [List.nil_append] at hcnt
  refine ⟨t1, hrun, getKeyVals_nodup t1 hok, getKeyVals_counts t1 hok keys hcnt, ?_⟩
  intro hnil
  apply List.eq_nil_iff_forall_not_mem.2
  intro p hp
  have := ((getKeyVals_counts t1 hok keys hcnt p).1 hp).1
  rw [hnil] at this
  cases this

set_option maxRecDepth 100000 in
/-- Witness of C1: the sequence of `chash_test` (abcd, abcd, abc, abcd on 256 rows)
yields abcd=3 and abc=1. -/
theorem C1_enumerate_counts_witness :
    (1 ≤ 256 ∧ ∀ k ∈ [[97, 98, 99, 100], [97, 98, 99, 100], [97, 98, 99], [97, 98, 99, 100]],
        k ≠ ([] : List Nat)) ∧
    (∃ t1, setAndIncAll (some (chash_create 256))
          [[97, 98, 99, 100], [97, 98, 99, 100], [97, 98, 99], [97, 98, 99, 100]] =
        some (List.replicate 4 true, some t1) ∧
      ((chash_getKeyVals (some t1)).map keyValPair.key).Nodup ∧
      (∀ p, p ∈ chash_getKeyVals (some t1) ↔
        p.key ∈ [[97, 98, 99, 100], [97, 98, 99, 100], [97, 98, 99], [97, 98, 99, 100]] ∧
        p.val = List.count p.key
          [[97, 98, 99, 100], [97, 98, 99, 100], [97, 98, 99], [97, 98, 99, 100]] % 2 ^ 32) ∧
      (([[97, 98, 99, 100], [97, 98, 99, 100], [97, 98, 99], [97, 98, 99, 100]] :
          List (List Nat)) = [] → chash_getKeyVals (some t1) = [])) ∧
    (setAndIncAll (some (chash_create 256))
        [[97, 98, 99, 100], [97, 98, 99, 100], [97, 98, 99], [97, 98, 99, 100]]).map
      (fun r => chash_getKeyVals r.2) =
      some [{ key := [97, 98, 99, 100], val := 3 }, { key := [97, 98, 99], val := 1 }] :=
  ⟨⟨by decide, by decide⟩,
   C1_enumerate_counts 256 [[97, 98, 99, 100], [97, 98, 99, 100], [97, 98, 99], [97, 98, 99, 100]]
     (by decide) (by decide),
   by decide⟩
/-! ## The partition loop -/

theorem launchLoop_eq (L n : Int) : ∀ (fuel : Nat) (tn : Int), 0 ≤ tn → (fuel : Int) = n - tn →
    launchLoop L n (L - 1) fuel tn (tn * (L / n)) =
      (List.range fuel).map fun (j : Nat) => rangeOf L n (tn + (j : Int)) := by
  intro fuel
  induction fuel with
  | zero => intro tn _ _; rfl
  | succ f ih =>
    intro tn h0 hf
    have hlt : tn < n := by push_cast at hf; omega
    rw [List.range_succ_eq_map, List.map_cons, List.map_map]
    simp only [launchLoop, hlt, if_true]
    congr 1
    · simp only [rangeOf, Nat.cast_zero, add_zero]
      congr 1
      split_ifs
      · rfl
      · ring
    · cases f with
      | zero => rfl
      | succ g =>
        have hne : ¬ tn = n - 1 := by push_cast at hf; omega
        simp only [hne, if_false]
        have hs : tn * (L / n) + L / n - 1 + 1 = (tn + 1) * (L / n) := by ring
        rw [hs, ih (tn + 1) (by omega) (by push_cast at hf ⊢; omega)]
        apply List.map_congr_left
        intro j _
        simp only [Function.comp, Nat.cast_succ]
        congr 1
        ring

/-- Closed form of `partition`: worker `i` of `min N L` gets `rangeOf`. -/
theorem partition_eq (L N : Int) (hL : 1 ≤ L) (hN : 1 ≤ N) :
    partition L N = (List.range (min N L).toNat).map fun (j : Nat) => rangeOf L (min N L) (j : Int) := by
  have hmin : (if N > L then L else N) = min N L := by
    split_ifs with h
    · exact (min_eq_right (le_of_lt h)).symm
    · exact (min_eq_left (not_lt.1 h)).symm
  unfold partition
  simp only [hmin]
  have h1 : 1 ≤ min N L := le_min hN hL
  have := launchLoop_eq L (min N L) (min N L).toNat 0 le_rfl (by omega)
  simp only [zero_mul, zero_add] at this
  exact this
theorem chunk_facts (L n : Int) (hn : 1 ≤ n) (hnL : n ≤ L) :
    1 ≤ L / n ∧ n * (L / n) ≤ L := by
  constructor
  · rw [Int.le_ediv_iff_mul_le (by omega)]; omega
  · exact Int.mul_ediv_self_le (by omega)

/-- Bounds of the closed-form range of worker `j < n`. -/
theorem rangeOf_bounds (L n : Int) (hn : 1 ≤ n) (hnL : n ≤ L) (j : Int) (h0 : 0 ≤ j)
    (hj : j < n) :
    0 ≤ (rangeOf L n j).start_idx ∧ (rangeOf L n j).start_idx ≤ (rangeOf L n j).end_idx ∧
      (rangeOf L n j).end_idx ≤ L - 1 := by
  obtain ⟨hc, hm⟩ := chunk_facts L n hn hnL
  have h1 : j * (L / n) ≤ (n - 1) * (L / n) :=
    Int.mul_le_mul_of_nonneg_right (by omega) (by omega)
  have h2 : (n - 1) * (L / n) = n * (L / n) - L / n := by ring
  have h3 : 0 ≤ j * (L / n) := Int.mul_nonneg h0 (by omega)
  simp only [rangeOf]
  refine ⟨h3, ?_, ?_⟩
  · split_ifs with h
    · omega
    · have : (j + 1) * (L / n) = j * (L / n) + L / n := by ring
      omega
  · split_ifs with h
    · omega
    · have h4 : (j + 1) * (L / n) ≤ (n - 1) * (L / n) :=
        Int.mul_le_mul_of_nonneg_right (by omega) (by omega)
      omega

theorem mem_partition (L N : Int) (hL : 1 ≤ L) (hN : 1 ≤ N) (p : thread_info) :
    p ∈ partition L N ↔ ∃ j : Nat, (j : Int) < min N L ∧ p = rangeOf L (min N L) j := by
  rw [partition_eq L N hL hN]
  have h1 : 1 ≤ min N L := le_min hN hL
  simp only [List.mem_map, List.mem_range]
  constructor
  · rintro ⟨j, hj, rfl⟩
    exact ⟨j, by omega, rfl⟩
  · rintro ⟨j, hj, rfl⟩
    exact ⟨j, by omega, rfl⟩

/-- C4: for `L ≥ 1` and requested `N ≥ 1` the ranges of the partition loop after the
clamp are non-empty and lie in `[0, L-1]`, the first starts at 0, each next one
starts at the previous end plus 1, the last ends at `L-1`; hence every index of
`[0, L-1]` lies in some range and ranges of different workers do not overlap. -/
theorem C4_partition_coverage (L N : Int) (hL : 1 ≤ L) (hN : 1 ≤ N) :
    partition L N ≠ [] ∧
    (∀ p ∈ partition L N, 0 ≤ p.start_idx ∧ p.start_idx ≤ p.end_idx ∧ p.end_idx ≤ L - 1) ∧
    (partition L N).head?.map thread_info.start_idx = some 0 ∧
    (partition L N).Chain' (fun a b => b.start_idx = a.end_idx + 1) ∧
    (partition L N).getLast?.map thread_info.end_idx = some (L - 1) ∧
    (∀ i : Int, 0 ≤ i → i ≤ L - 1 →
      ∃ p ∈ partition L N, p.start_idx ≤ i ∧ i ≤ p.end_idx) ∧
    (partition L N).Pairwise (fun a b => a.end_idx < b.start_idx) := by
  have h1 : 1 ≤ min N L := le_min hN hL
  have hnL : min N L ≤ L := min_le_right _ _
  obtain ⟨hc, hm⟩ := chunk_facts L (min N L) h1 hnL
  obtain ⟨m, hmn⟩ : ∃ m : Nat, (min N L).toNat = m + 1 := ⟨(min N L).toNat - 1, by omega⟩
  have hmI : ((m : Int) + 1) = min N L := by omega
  refine ⟨?_, ?_, ?_, ?_, ?_, ?_, ?_⟩
  · rw [partition_eq L N hL hN, hmn, List.range_succ_eq_map]; simp
  · intro p hp
    obtain ⟨j, hj, rfl⟩ := (mem_partition L N hL hN p).1 hp
    exact rangeOf_bounds L _ h1 hnL j (by omega) hj
  · rw [partition_eq L N hL hN, hmn, List.range_succ_eq_map]
    simp [rangeOf]
  · rw [partition_eq L N hL hN, hmn, List.chain'_map, List.chain'_range_succ]
    intro j hj
    have hne : ¬ (j : Int) = min N L - 1 := by omega
    simp only [rangeOf, hne, if_false, Nat.succ_eq_add_one, Nat.cast_add, Nat.cast_one]
    ring
  · rw [partition_eq L N hL hN, hmn, List.range_succ, List.map_append, List.map_cons,
      List.map_nil, List.getLast?_concat]
    have : (m : Int) = min N L - 1 := by omega
    simp [rangeOf, this]
  · intro i hi0 hiL
    by_cases hlast : i / (L / min N L) < min N L - 1
    · have hq0 : 0 ≤ i / (L / min N L) := Int.ediv_nonneg hi0 (by omega)
      refine ⟨rangeOf L (min N L) (i / (L / min N L)), ?_, ?_, ?_⟩
      · apply (mem_partition L N hL hN _).2
        refine ⟨(i / (L / min N L)).toNat, by omega, ?_⟩
        rw [Int.toNat_of_nonneg hq0]
      · simp only [rangeOf]
        exact Int.ediv_mul_le i (by omega)
      · have hne : ¬ i / (L / min N L) = min N L - 1 := by omega
        simp only [rangeOf, hne, if_false]
        have := Int.lt_ediv_add_one_mul_self i (show 0 < L / min N L by omega)
        omega
    · refine ⟨rangeOf L (min N L) (min N L - 1), ?_, ?_, ?_⟩
      · apply (mem_partition L N hL hN _).2
        exact ⟨m, by omega, by rw [← hmI]; congr 1; omega⟩
      · simp only [rangeOf]
        have h5 : (min N L - 1) * (L / min N L) ≤ i / (L / min N L) * (L / min N L) :=
          Int.mul_le_mul_of_nonneg_right (by omega) (by omega)
        have := Int.ediv_mul_le i (show L / min N L ≠ 0 by omega)
        omega
      · simp [rangeOf, hiL]
  · rw [partition_eq L N hL hN, List.pairwise_map]
    refine (List.pairwise_lt_range _).imp_of_mem ?_
    intro a b _ hb hab
    have hbn : b < (min N L).toNat := List.mem_range.1 hb
    simp only [rangeOf]
    have h6 : ((a : Int) + 1) * (L / min N L) ≤ (b : Int) * (L / min N L) :=
      Int.mul_le_mul_of_nonneg_right (by omega) (by omega)
    split_ifs with h
    · omega
    · omega

/-- Witness of C4: a buffer of 10 bytes split for 3 workers. -/
theorem C4_partition_coverage_witness :
    ((1 : Int) ≤ 10 ∧ (1 : Int) ≤ 3) ∧
    (partition 10 3 ≠ [] ∧
    (∀ p ∈ partition 10 3, 0 ≤ p.start_idx ∧ p.start_idx ≤ p.end_idx ∧ p.end_idx ≤ 10 - 1) ∧
    (partition 10 3).head?.map thread_info.start_idx = some 0 ∧
    (partition 10 3).Chain' (fun a b => b.start_idx = a.end_idx + 1) ∧
    (partition 10 3).getLast?.map thread_info.end_idx = some (10 - 1) ∧
    (∀ i : Int, 0 ≤ i → i ≤ 10 - 1 →
      ∃ p ∈ partition 10 3, p.start_idx ≤ i ∧ i ≤ p.end_idx) ∧
    (partition 10 3).Pairwise (fun a b => a.end_idx < b.start_idx)) ∧
    partition 10 3 =
      [{ thread_id := 0, start_idx := 0, end_idx := 2, last_idx := 9 },
       { thread_id := 1, start_idx := 3, end_idx := 5, last_idx := 9 },
       { thread_id := 2, start_idx := 6, end_idx := 9, last_idx := 9 }] :=
  ⟨⟨by decide, by decide⟩, C4_partition_coverage 10 3 (by decide) (by decide), by decide⟩

/-- C10: for `L ≥ 1` and requested `N ≥ 1` the partition loop builds `min N L`
ranges; every range but the last holds `L / min N L` bytes and the last holds
`L / min N L + L % min N L` bytes. -/
theorem C10_partition_sizes (L N : Int) (hL : 1 ≤ L) (hN : 1 ≤ N) :
    ((partition L N).length : Int) = min N L ∧
    (∀ (i : Nat) (h : i < (partition L N).length), i + 1 < (partition L N).length →
      (partition L N)[i].end_idx - (partition L N)[i].start_idx + 1 = L / min N L) ∧
    (∃ p, (partition L N).getLast? = some p ∧
      p.end_idx - p.start_idx + 1 = L / min N L + L % min N L) := by
  have h1 : 1 ≤ min N L := le_min hN hL
  have hlen : (partition L N).length = (min N L).toNat := by
    rw [partition_eq L N hL hN]; simp
  refine ⟨by rw [hlen]; omega, ?_, ?_⟩
  · intro i h hnl
    have hne : ¬ (i : Int) = min N L - 1 := by omega
    simp only [partition_eq L N hL hN, List.getElem_map, List.getElem_range, rangeOf, hne,
      if_false]
    ring
  · obtain ⟨m, hmn⟩ : ∃ m : Nat, (min N L).toNat = m + 1 := ⟨(min N L).toNat - 1, by omega⟩
    have hm : (m : Int) = min N L - 1 := by omega
    refine ⟨rangeOf L (min N L) m, ?_, ?_⟩
    · rw [partition_eq L N hL hN, hmn, List.range_succ, List.map_append, List.map_cons,
        List.map_nil, List.getLast?_concat]
    · simp only [rangeOf, hm, if_true, Int.emod_def]
      ring

/-- Witness of C10: a request for 50 workers on 10 bytes is reduced to 10 ranges of
one byte, and 10 bytes for 3 workers give ranges of 3, 3 and 4 bytes. -/
theorem C10_partition_sizes_witness :
    ((1 : Int) ≤ 10 ∧ (1 : Int) ≤ 50) ∧
    (((partition 10 50).length : Int) = min 50 10 ∧
    (∀ (i : Nat) (h : i < (partition 10 50).length), i + 1 < (partition 10 50).length →
      (partition 10 50)[i].end_idx - (partition 10 50)[i].start_idx + 1 = 10 / min 50 10) ∧
    (∃ p, (partition 10 50).getLast? = some p ∧
      p.end_idx - p.start_idx + 1 = 10 / min 50 10 + 10 % min 50 10)) ∧
    (partition 10 50).length = 10 ∧
    (partition 10 3).map (fun p => p.end_idx - p.start_idx + 1) = [3, 3, 4] :=
  ⟨⟨by decide, by decide⟩, C10_partition_sizes 10 50 (by decide) (by decide), by decide,
    by decide⟩
/-! ## Reachable tables -/

/-- On a chain of well-formed nodes a completed walk is a `RowStep`. -/
theorem walkRow_rowStep {size r : Nat} (k : List Nat) (ks : Nat) (a : Bool) (hle : ks ≤ k.length)
    (c c1 : List node) (hnode : ∀ n ∈ c, nodeOK size r n)
    (hw : walkRow k ks (hash k ks) a c = some c1) :
    RowStep (k.take ks) (newNode k ks) c c1 := by
  rcases walkRow_cases k ks a _ _ hw with ⟨pre, n, post, hc, hm, hpre, hc1⟩ | ⟨hall, _, hc1⟩
  · left
    refine ⟨pre, n, post, hc, ?_, ?_, hc1⟩
    · exact (match_iff (hnode n (by rw [hc]; simp)) k ks hle).1 hm
    · intro m hm' hk
      have := (match_iff (hnode m (by rw [hc]; simp [hm'])) k ks hle).2 hk
      rw [hpre m hm'] at this
      exact Bool.false_ne_true this
  · right
    refine ⟨?_, hc1⟩
    intro m hm' hk
    have := (match_iff (hnode m hm') k ks hle).2 hk
    rw [hall m hm'] at this
    exact Bool.false_ne_true this

theorem TableOK.setLock {t : chash} (hok : TableOK t) (r : Nat) (b : Bool) :
    TableOK (setLock t r b) where
  rows_len := hok.rows_len
  locks_len := by simp [MapReduce.setLock, hok.locks_len]
  pos := hok.pos
  node_ok := hok.node_ok
  nodup := hok.nodup

/-- Every returning call keeps a well-formed table well formed. -/
theorem setAndInc_preserves (t : chash) (hok : TableOK t) (key : Option (List Nat)) (ks : Nat)
    (a b : Bool) (t1 : chash) (hkey : ∀ k, key = some k → ks ≤ k.length)
    (hcall : chash_setAndInc (some t) key ks a = some (b, some t1)) : TableOK t1 := by
  cases key with
  | none =>
    simp only [chash_setAndInc, Option.some.injEq, Prod.mk.injEq] at hcall
    rw [← hcall.2]; exact hok
  | some k =>
    by_cases hks : ks = 0
    · simp only [chash_setAndInc, hks, if_true, Option.some.injEq, Prod.mk.injEq] at hcall
      rw [← hcall.2]; exact hok
    · rw [setAndInc_eq t k ks a hks (Nat.pos_iff_ne_zero.1 hok.pos)] at hcall
      split_ifs at hcall with hl
      have hlt := hok.row_lt (hash k ks)
      have hrow : t.rows[hash k ks % t.size]? = some (t.rows[hash k ks % t.size]) :=
        List.getElem?_eq_getElem hlt
      have hgetD : t.rows.getD (hash k ks % t.size) [] = t.rows[hash k ks % t.size] := by
        rw [List.getD_eq_getElem?_getD, hrow]; rfl
      rw [hgetD] at hcall
      cases hw : walkRow k ks (hash k ks) a (t.rows[hash k ks % t.size]) with
      | none =>
        rw [hw] at hcall
        simp only [Option.some.injEq, Prod.mk.injEq] at hcall
        rw [← hcall.2]; exact hok.setLock _ _
      | some c1 =>
        rw [hw] at hcall
        simp only [Option.some.injEq, Prod.mk.injEq] at hcall
        rw [← hcall.2]
        exact setAndInc_step_ok t hok k ks hks (hkey k rfl) hrow
          (walkRow_rowStep k ks a (hkey k rfl) _ _ (hok.node_ok _ _ hrow) hw)

theorem Reachable.ok {t : chash} (h : Reachable t) : TableOK t := by
  induction h with
  | create size h => exact chash_create_ok size h
  | step t key ks a b t1 _ hkey hcall ih => exact setAndInc_preserves t ih key ks a b t1 hkey hcall
/-- C6: in a reachable table no two entries of a row have keys equal in length and
bytes; a call (row mutex free, allocation succeeding) with a key equal in length and
bytes to the key of an existing entry increments that very entry in place, and a call
with a key that differs in length or bytes from every existing entry links a new
entry at the tail of its row, whatever the stored hashes are. -/
theorem C6_key_identity (t : chash) (hr : Reachable t) (k : List Nat) (ks : Nat)
    (hks : ks ≠ 0) (hle : ks ≤ k.length)
    (hfree : t.row_locks.getD (hash k ks % t.size) false = false) :
    (∀ (r : Nat) (c : List node), t.rows[r]? = some c →
      c.Pairwise fun a b => ¬ (a.key_size = b.key_size ∧ a.key = b.key)) ∧
    ∃ c c1, t.rows[hash k ks % t.size]? = some c ∧
      chash_setAndInc (some t) (some k) ks true = some (true, some
        { size := t.size, rows := t.rows.set (hash k ks % t.size) c1,
          row_locks := t.row_locks }) ∧
      (∀ (r : Nat) (c2 : List node) (e : node), t.rows[r]? = some c2 → e ∈ c2 →
        e.key_size = ks → e.key = k.take ks →
        ∃ pre post, c = pre ++ e :: post ∧ c1 = pre ++ incNode e :: post) ∧
      ((∀ (r : Nat) (c2 : List node) (e : node), t.rows[r]? = some c2 → e ∈ c2 →
          e.key_size ≠ ks ∨ e.key ≠ k.take ks) →
        c1 = c ++ [newNode k ks]) := by
  have hok := hr.ok
  constructor
  · intro r c hc
    have := hok.nodup r c hc
    rw [List.Nodup, List.pairwise_map] at this
    exact this.imp fun h1 h2 => h1 h2.2
  · obtain ⟨c, c1, hc, hcall, hstep⟩ := setAndInc_step t hok k ks hks hle hfree
    refine ⟨c, c1, hc, hcall, ?_, ?_⟩
    · intro r c2 e hc2 he _ hkey
      obtain ⟨e1, _, e3, e4⟩ := hok.node_ok r c2 hc2 e he
      have hrow : r = hash k ks % t.size := by
        rw [← e4, e3, ← e1, hkey, List.length_take, min_eq_left hle, hash_take]
      subst hrow
      rw [hc] at hc2; cases hc2
      rcases hstep with ⟨pre, n, post, hceq, hn, _, hc1⟩ | ⟨hall, _⟩
      · have hen : e = n := by
          apply List.inj_on_of_nodup_map (hok.nodup _ _ hc) he (by rw [hceq]; simp)
          rw [hkey, hn]
        subst hen
        exact ⟨pre, post, hceq, hc1⟩
      · exact absurd hkey (hall e he)
    · intro hall
      rcases hstep with ⟨pre, n, post, hceq, hn, _, _⟩ | ⟨_, hc1⟩
      · have hmem : n ∈ c := by rw [hceq]; simp
        obtain ⟨e1, _, _, _⟩ := hok.node_ok _ c hc n hmem
        rcases hall _ c n hc hmem with h | h
        · exfalso; apply h
          rw [← e1, hn, List.length_take, min_eq_left hle]
        · exact absurd hn h
      · exact hc1

theorem tableAqaa_reachable : Reachable tableAqaa :=
  Reachable.step (chash_create 4) (some [97, 113, 97, 97]) 4 true true tableAqaa
    (Reachable.create 4 (by decide)) (by intro k hk; cases hk; decide) (by decide)

/-- Witness of C6: "aqaa" and "elue" have the same 32-bit hash 415159071; a call
with "elue" on the table holding "aqaa" links a new entry behind it, and a further
call with "aqaa" increments the first entry. -/
theorem C6_key_identity_witness :
    (Reachable tableAqaa ∧ 4 ≠ 0 ∧ 4 ≤ [101, 108, 117, 101].length ∧
      tableAqaa.row_locks.getD (hash [101, 108, 117, 101] 4 % tableAqaa.size) false = false) ∧
    ((∀ (r : Nat) (c : List node), tableAqaa.rows[r]? = some c →
      c.Pairwise fun a b => ¬ (a.key_size = b.key_size ∧ a.key = b.key)) ∧
    ∃ c c1, tableAqaa.rows[hash [101, 108, 117, 101] 4 % tableAqaa.size]? = some c ∧
      chash_setAndInc (some tableAqaa) (some [101, 108, 117, 101]) 4 true = some (true, some
        { size := tableAqaa.size,
          rows := tableAqaa.rows.set (hash [101, 108, 117, 101] 4 % tableAqaa.size) c1,
          row_locks := tableAqaa.row_locks }) ∧
      (∀ (r : Nat) (c2 : List node) (e : node), tableAqaa.rows[r]? = some c2 → e ∈ c2 →
        e.key_size = 4 → e.key = [101, 108, 117, 101].take 4 →
        ∃ pre post, c = pre ++ e :: post ∧ c1 = pre ++ incNode e :: post) ∧
      ((∀ (r : Nat) (c2 : List node) (e : node), tableAqaa.rows[r]? = some c2 → e ∈ c2 →
          e.key_size ≠ 4 ∨ e.key ≠ [101, 108, 117, 101].take 4) →
        c1 = c ++ [newNode [101, 108, 117, 101] 4])) ∧
    hash [97, 113, 97, 97] 4 = hash [101, 108, 117, 101] 4 ∧
    (setAndIncAll (some tableAqaa) [[101, 108, 117, 101], [97, 113, 97, 97]]).map
        (fun r => chash_getKeyVals r.2) =
      some [{ key := [97, 113, 97, 97], val := 2 }, { key := [101, 108, 117, 101], val := 1 }] :=
  ⟨⟨tableAqaa_reachable, by decide, by decide, by decide⟩,
   C6_key_identity tableAqaa tableAqaa_reachable [101, 108, 117, 101] 4 (by decide) (by decide)
     (by decide),
   by decide, by decide⟩
/-! ## Argument checks and the row mutex -/

/-- C8: a call with a null key, with `key_size = 0` or with a null table returns
`false` and leaves the table as it was, locks included; a call on a non-null table
with at least one row, a key of non-zero size, the row mutex free (no earlier call
failed) and the node allocation succeeding returns `true`. -/
theorem C8_invalid_argument (t : chash) (k : List Nat) (ks : Nat) (hrows : 1 ≤ t.size)
    (hks : ks ≠ 0) (hfree : t.row_locks.getD (hash k ks % t.size) false = false) :
    (∀ (key_size : Nat) (allocOk : Bool),
      chash_setAndInc (some t) none key_size allocOk = some (false, some t)) ∧
    (∀ (key : Option (List Nat)) (allocOk : Bool),
      chash_setAndInc (some t) key 0 allocOk = some (false, some t)) ∧
    (∀ (key : Option (List Nat)) (key_size : Nat) (allocOk : Bool),
      chash_setAndInc none key key_size allocOk = some (false, none)) ∧
    ∃ t1, chash_setAndInc (some t) (some k) ks true = some (true, some t1) := by
  refine ⟨fun _ _ => rfl, ?_, ?_, ?_⟩
  · intro key a
    cases key <;> simp [chash_setAndInc]
  · intro key key_size a
    cases key <;> rfl
  · obtain ⟨c1, hc1⟩ := walkRow_alloc k ks (hash k ks) (t.rows.getD (hash k ks % t.size) [])
    rw [setAndInc_eq t k ks true hks (by omega),
      if_neg (by rw [hfree]; exact Bool.false_ne_true), hc1]
    exact ⟨_, rfl⟩

/-- Witness of C8: the table of 4 rows holding "aqaa", asked for "abc". -/
theorem C8_invalid_argument_witness :
    (1 ≤ tableAqaa.size ∧ 3 ≠ 0 ∧
      tableAqaa.row_locks.getD (hash [97, 98, 99] 3 % tableAqaa.size) false = false) ∧
    ((∀ (key_size : Nat) (allocOk : Bool),
      chash_setAndInc (some tableAqaa) none key_size allocOk = some (false, some tableAqaa)) ∧
    (∀ (key : Option (List Nat)) (allocOk : Bool),
      chash_setAndInc (some tableAqaa) key 0 allocOk = some (false, some tableAqaa)) ∧
    (∀ (key : Option (List Nat)) (key_size : Nat) (allocOk : Bool),
      chash_setAndInc none key key_size allocOk = some (false, none)) ∧
    ∃ t1, chash_setAndInc (some tableAqaa) (some [97, 98, 99]) 3 true = some (true, some t1)) :=
  ⟨⟨by decide, by decide, by decide⟩,
   C8_invalid_argument tableAqaa [97, 98, 99] 3 (by decide) (by decide) (by decide)⟩

/-- C9, the code at an allocation failure: on a fresh table of one row the call for
"a" whose node allocation fails returns `false` with the chain untouched and the row
mutex still held, so the next call for that row never returns; the same happens
when the row already holds another key. -/
theorem C9_lock_held_after_alloc_failure :
    chash_setAndInc (some (chash_create 1)) (some [97]) 1 false =
      some (false, some { size := 1, rows := [[]], row_locks := [true] }) ∧
    chash_setAndInc (some { size := 1, rows := [[]], row_locks := [true] }) (some [97]) 1 true =
      none ∧
    chash_setAndInc
        (some { size := 1, rows := [[newNode [98] 1]], row_locks := [false] }) (some [97]) 1 false =
      some (false, some { size := 1, rows := [[newNode [98] 1]], row_locks := [true] }) := by
  decide

/-! ## The scan of the workers at concrete buffers -/

/-- C2, the code on the buffer "abcdef" with 3 workers: the workers record the two
tokens "abcdef" and "def", a single worker records "abcdef" only. -/
theorem C2_conservation_abcdef :
    partition 6 3 =
      [{ thread_id := 0, start_idx := 0, end_idx := 1, last_idx := 5 },
       { thread_id := 1, start_idx := 2, end_idx := 3, last_idx := 5 },
       { thread_id := 2, start_idx := 4, end_idx := 5, last_idx := 5 }] ∧
    allTokens (partition 6 3) [97, 98, 99, 100, 101, 102] =
      [[97, 98, 99, 100, 101, 102], [100, 101, 102]] ∧
    allTokens (partition 6 1) [97, 98, 99, 100, 101, 102] = [[97, 98, 99, 100, 101, 102]] ∧
    ¬ (allTokens (partition 6 3) [97, 98, 99, 100, 101, 102]).Perm
        (allTokens (partition 6 1) [97, 98, 99, 100, 101, 102]) := by
  decide

/-- C3, the code on the buffer "abcde." split into [0,1], [2,3], [4,5]: the run
"abcde" has bytes in all three ranges; worker 0 records the span (0,4) and worker 1,
whose range starts inside the run, records the span (3,4), the token "de". -/
theorem C3_boundary_abcde :
    (partition 6 3).map (fun ti => WorkThread ti [97, 98, 99, 100, 101, 46]) =
      [[(0, 4)], [(3, 4)], []] ∧
    adjustedStart { thread_id := 1, start_idx := 2, end_idx := 3, last_idx := 5 }
      [97, 98, 99, 100, 101, 46] = 3 ∧
    workerTokens { thread_id := 1, start_idx := 2, end_idx := 3, last_idx := 5 }
      [97, 98, 99, 100, 101, 46] = [[100, 101]] := by
  decide

/-- C5, the code on buffers ending with a one-byte word: a single worker over "a"
makes no call, and over "ab c" it records "ab" only. -/
theorem C5_single_scan_last_byte_word :
    WorkThread { thread_id := 0, start_idx := 0, end_idx := 0, last_idx := 0 } [97] = [] ∧
    partition 4 1 = [{ thread_id := 0, start_idx := 0, end_idx := 3, last_idx := 3 }] ∧
    allTokens (partition 4 1) [97, 98, 32, 99] = [[97, 98]] ∧
    allTokens (partition 3 1) [97, 32, 98] = [[97]] ∧
    allTokens (partition 5 1) [97, 98, 32, 99, 100] = [[97, 98], [99, 100]] := by
  decide
/-! ## Sorting and printing -/

theorem strcmp_neg_iff : ∀ (a b : List Nat), (∀ x ∈ a, x ≠ 0) → (∀ y ∈ b, y ≠ 0) →
    (strcmp a b < 0 ↔ lexLt a b = true)
  | [], [], _, _ => by simp [strcmp, lexLt]
  | [], y :: ys, _, hb => by
    have : y ≠ 0 := hb y (by simp)
    simp [strcmp, lexLt]; omega
  | x :: xs, [], _, _ => by simp [strcmp, lexLt]
  | x :: xs, y :: ys, ha, hb => by
    have hx : x ≠ 0 := ha x (by simp)
    have ih := strcmp_neg_iff xs ys (fun z hz => ha z (by simp [hz]))
      (fun z hz => hb z (by simp [hz]))
    by_cases hxy : x = y
    · subst hxy
      simp [strcmp, lexLt, hx, ih]
    · simp only [strcmp, lexLt, hxy, if_false, Bool.or_eq_true, decide_eq_true_eq,
        Bool.and_eq_true, beq_iff_eq, false_and, or_false]
      omega

theorem strcmp_eq_zero_iff : ∀ (a b : List Nat), (∀ x ∈ a, x ≠ 0) → (∀ y ∈ b, y ≠ 0) →
    (strcmp a b = 0 ↔ a = b)
  | [], [], _, _ => by simp [strcmp]
  | [], y :: ys, _, hb => by
    have : y ≠ 0 := hb y (by simp)
    simp [strcmp]; omega
  | x :: xs, [], ha, _ => by
    have : x ≠ 0 := ha x (by simp)
    simp [strcmp]; omega
  | x :: xs, y :: ys, ha, hb => by
    have hx : x ≠ 0 := ha x (by simp)
    have ih := strcmp_eq_zero_iff xs ys (fun z hz => ha z (by simp [hz]))
      (fun z hz => hb z (by simp [hz]))
    by_cases hxy : x = y
    · subst hxy
      simp [strcmp, hx, ih]
    · simp only [strcmp, hxy, if_false, List.cons.injEq, false_and, iff_false]
      omega

theorem strcmp_swap : ∀ (a b : List Nat), strcmp b a = - strcmp a b
  | [], [] => by simp [strcmp]
  | [], y :: ys => by simp [strcmp]
  | x :: xs, [] => by simp [strcmp]
  | x :: xs, y :: ys => by
    by_cases hxy : x = y
    · subst hxy
      by_cases hx : x = 0
      · simp [strcmp, hx]
      · simp [strcmp, hx, strcmp_swap xs ys]
    · have hyx : ¬ y = x := fun h => hxy h.symm
      simp only [strcmp, hxy, hyx, if_false]
      omega

theorem lexLt_irrefl : ∀ a : List Nat, lexLt a a = false
  | [] => rfl
  | x :: xs => by simp [lexLt, lexLt_irrefl xs]

theorem lexLt_trans : ∀ a b c : List Nat, lexLt a b = true → lexLt b c = true →
    lexLt a c = true
  | _, [], _, h, _ => by cases ‹List Nat› <;> simp [lexLt] at h
  | _, _ :: _, [], _, h => by simp [lexLt] at h
  | [], _ :: _, _ :: _, _, _ => by simp [lexLt]
  | x :: xs, y :: ys, z :: zs, h1, h2 => by
    simp only [lexLt, Bool.or_eq_true, decide_eq_true_eq, Bool.and_eq_true, beq_iff_eq]
      at h1 h2 ⊢
    rcases h1 with h1 | ⟨h1, h1'⟩ <;> rcases h2 with h2 | ⟨h2, h2'⟩
    · left; omega
    · left; omega
    · left; omega
    · right; exact ⟨by omega, lexLt_trans xs ys zs h1' h2'⟩

/-- Sign of `strcmp` on keys without zero byte: not positive exactly when the first
key equals the second or precedes it in `lexLt`. -/
theorem strcmp_le_iff (a b : List Nat) (ha : ∀ x ∈ a, x ≠ 0) (hb : ∀ y ∈ b, y ≠ 0) :
    strcmp a b ≤ 0 ↔ (a = b ∨ lexLt a b = true) := by
  rw [← strcmp_neg_iff a b ha hb, ← strcmp_eq_zero_iff a b ha hb]
  omega
theorem qsortInsert_perm {α : Type} (cmp : α → α → Int) (x : α) :
    ∀ l : List α, (qsortInsert cmp x l).Perm (x :: l)
  | [] => List.Perm.refl _
  | y :: ys => by
    unfold qsortInsert
    split_ifs
    · exact List.Perm.refl _
    · exact ((qsortInsert_perm cmp x ys).cons y).trans (List.Perm.swap x y ys)

theorem qsort_perm {α : Type} (cmp : α → α → Int) : ∀ l : List α, (qsort cmp l).Perm l
  | [] => List.Perm.refl _
  | x :: xs => (qsortInsert_perm cmp x (qsort cmp xs)).trans ((qsort_perm cmp xs).cons x)

theorem qsortInsert_sorted {α : Type} (cmp : α → α → Int) (P : α → Prop)
    (htot : ∀ a b, P a → P b → cmp a b ≤ 0 ∨ cmp b a ≤ 0)
    (htr : ∀ a b c, P a → P b → P c → cmp a b ≤ 0 → cmp b c ≤ 0 → cmp a c ≤ 0)
    (x : α) (hx : P x) :
    ∀ l : List α, (∀ y ∈ l, P y) → l.Pairwise (fun a b => cmp a b ≤ 0) →
      (qsortInsert cmp x l).Pairwise (fun a b => cmp a b ≤ 0)
  | [], _, _ => by simp [qsortInsert]
  | y :: ys, hP, hs => by
    have hy : P y := hP y (by simp)
    have hPys : ∀ z ∈ ys, P z := fun z hz => hP z (by simp [hz])
    obtain ⟨hy_le, hys⟩ := List.pairwise_cons.1 hs
    unfold qsortInsert
    split_ifs with hc
    · refine List.pairwise_cons.2 ⟨?_, hs⟩
      intro z hz
      rcases List.mem_cons.1 hz with rfl | hz
      · exact hc
      · exact htr x y z hx hy (hPys z hz) hc (hy_le z hz)
    · refine List.pairwise_cons.2 ⟨?_, qsortInsert_sorted cmp P htot htr x hx ys hPys hys⟩
      intro z hz
      rcases List.mem_cons.1 ((qsortInsert_perm cmp x ys).mem_iff.1 hz) with rfl | hz
      · rcases htot z y hx hy with h | h
        · exact absurd h hc
        · exact h
      · exact hy_le z hz

/-- The model of `qsort` returns a list ordered by the comparison function whenever
the function is total and transitive on the elements. -/
theorem qsort_sorted {α : Type} (cmp : α → α → Int) (P : α → Prop)
    (htot : ∀ a b, P a → P b → cmp a b ≤ 0 ∨ cmp b a ≤ 0)
    (htr : ∀ a b c, P a → P b → P c → cmp a b ≤ 0 → cmp b c ≤ 0 → cmp a c ≤ 0) :
    ∀ l : List α, (∀ y ∈ l, P y) → (qsort cmp l).Pairwise (fun a b => cmp a b ≤ 0)
  | [], _ => by simp [qsort]
  | x :: xs, hP =>
    qsortInsert_sorted cmp P htot htr x (hP x (by simp)) (qsort cmp xs)
      (fun y hy => hP y (by simp [(qsort_perm cmp xs).mem_iff.1 hy]))
      (qsort_sorted cmp P htot htr xs (fun y hy => hP y (by simp [hy])))

theorem isWordChar_ne_zero {c : Nat} (h : isWordChar c = true) : c ≠ 0 := by
  rintro rfl
  exact absurd h (by decide)

/-- Sorting pairs whose keys hold no zero byte and are pairwise distinct gives a
list in strictly ascending `lexLt` order of keys. -/
theorem qsort_cmpFunc_strict (l : List keyValPair) (hnz : ∀ p ∈ l, ∀ x ∈ p.key, x ≠ 0)
    (hnd : (l.map keyValPair.key).Nodup) :
    (qsort cmpFunc l).Pairwise (fun a b => lexLt a.key b.key = true) := by
  have hs := qsort_sorted cmpFunc (fun p => ∀ x ∈ p.key, x ≠ 0)
    (by
      intro a b _ _
      have := strcmp_swap a.key b.key
      simp only [cmpFunc]; omega)
    (by
      intro a b c ha hb hc h1 h2
      simp only [cmpFunc] at h1 h2 ⊢
      rw [strcmp_le_iff _ _ ha hb] at h1
      rw [strcmp_le_iff _ _ hb hc] at h2
      rw [strcmp_le_iff _ _ ha hc]
      rcases h1 with h1 | h1
      · rw [h1]; exact h2
      · rcases h2 with h2 | h2
        · rw [← h2]; exact Or.inr h1
        · exact Or.inr (lexLt_trans _ _ _ h1 h2))
    l hnz
  have hnd' : ((qsort cmpFunc l).map keyValPair.key).Nodup :=
    ((qsort_perm cmpFunc l).map _).nodup_iff.2 hnd
  rw [List.Nodup, List.pairwise_map] at hnd'
  have hboth := hs.and hnd'
  refine hboth.imp_of_mem ?_
  intro a b ha hb hab
  have ha' := hnz a ((qsort_perm cmpFunc l).mem_iff.1 ha)
  have hb' := hnz b ((qsort_perm cmpFunc l).mem_iff.1 hb)
  rcases (strcmp_le_iff _ _ ha' hb').1 hab.1 with h | h
  · exact absurd h hab.2
  · exact h

/-- In a list strictly ascending for `lexLt`, an element whose key precedes the key of
another element stands before it. -/
theorem sublist_pair_of_sorted : ∀ (l : List keyValPair),
    l.Pairwise (fun a b => lexLt a.key b.key = true) → ∀ p q, p ∈ l → q ∈ l →
    lexLt p.key q.key = true → List.Sublist [p, q] l
  | [], _, _, _, hp, _, _ => by cases hp
  | a :: rest, hs, p, q, hp, hq, hpq => by
    obtain ⟨ha, hrest⟩ := List.pairwise_cons.1 hs
    rcases List.mem_cons.1 hp with rfl | hp1
    · rcases List.mem_cons.1 hq with rfl | hq1
      · rw [lexLt_irrefl] at hpq; cases hpq
      · exact List.Sublist.cons₂ _ (List.singleton_sublist.2 hq1)
    · rcases List.mem_cons.1 hq with rfl | hq1
      · have := lexLt_trans _ _ _ hpq (ha p hp1)
        rw [lexLt_irrefl] at this; cases this
      · exact List.Sublist.cons _ (sublist_pair_of_sorted rest hrest p q hp1 hq1 hpq)
/-- C7: for a table built from alphanumeric words, the list `main` gets from
`chash_getKeyVals` and sorts with `cmpFunc` is in strictly ascending byte-wise
lexicographic key order, holds every distinct word exactly once with its number of
occurrences (modulo `2 ^ 32`), each printed line is the key, `=`, the count and a
newline, and a key starting with an uppercase letter stands before every key
starting with a lowercase letter. -/
theorem C7_sorted_output (rowCount : Nat) (words : List (List Nat)) (hrows : 1 ≤ rowCount)
    (hwords : ∀ w ∈ words, w ≠ [] ∧ ∀ c ∈ w, isWordChar c = true) :
    ∃ t1 out, setAndIncAll (some (chash_create rowCount)) words =
        some (List.replicate words.length true, some t1) ∧
      out = qsort cmpFunc (chash_getKeyVals (some t1)) ∧
      out.Pairwise (fun a b => lexLt a.key b.key = true) ∧
      (out.map keyValPair.key).Nodup ∧
      (∀ w, w ∈ out.map keyValPair.key ↔ w ∈ words) ∧
      (∀ p ∈ out, p.val = words.count p.key % 2 ^ 32) ∧
      main_output (some t1) = out.map (fun p => p.key ++ [61] ++ decimal p.val ++ [10]) ∧
      (∀ p q u l s1 s2, p ∈ out → q ∈ out → p.key = u :: s1 → q.key = l :: s2 →
        65 ≤ u → u ≤ 90 → 97 ≤ l → l ≤ 122 → List.Sublist [p, q] out) := by
  obtain ⟨t1, hrun, hok, _, hcnt, _⟩ :=
    setAndIncAll_spec words [] (chash_create rowCount) (chash_create_ok rowCount hrows)
      (chash_create_free rowCount) (Counts_create rowCount) (fun k hk => (hwords k hk).1)
  rw [List.nil_append] at hcnt
  have hperm := qsort_perm cmpFunc (chash_getKeyVals (some t1))
  have hmem : ∀ p, p ∈ qsort cmpFunc (chash_getKeyVals (some t1)) ↔
      p.key ∈ words ∧ p.val = words.count p.key % 2 ^ 32 := fun p =>
    hperm.mem_iff.trans (getKeyVals_counts t1 hok words hcnt p)
  have hnz : ∀ p ∈ chash_getKeyVals (some t1), ∀ x ∈ p.key, x ≠ 0 := by
    intro p hp x hx
    have := ((getKeyVals_counts t1 hok words hcnt p).1 hp).1
    exact isWordChar_ne_zero ((hwords _ this).2 x hx)
  have hsorted := qsort_cmpFunc_strict _ hnz (getKeyVals_nodup t1 hok)
  refine ⟨t1, _, hrun, rfl, hsorted, ?_, ?_, ?_, ?_, ?_⟩
  · exact (hperm.map _).nodup_iff.2 (getKeyVals_nodup t1 hok)
  · intro w
    constructor
    · intro hw
      obtain ⟨p, hp, rfl⟩ := List.mem_map.1 hw
      exact ((hmem p).1 hp).1
    · intro hw
      exact List.mem_map.2 ⟨⟨w, words.count w % 2 ^ 32⟩, (hmem _).2 ⟨hw, rfl⟩, rfl⟩
  · intro p hp
    exact ((hmem p).1 hp).2
  · unfold main_output
    apply List.map_congr_left
    intro p hp
    have hk : p.key.takeWhile (fun b => decide (b ≠ 0)) = p.key := by
      rw [List.takeWhile_eq_self_iff]
      intro x hx
      have := isWordChar_ne_zero ((hwords _ ((hmem p).1 hp).1).2 x hx)
      simpa using this
    simp only [printLine, hk]
  · intro p q u l s1 s2 hp hq hpk hqk h1 h2 h3 h4
    apply sublist_pair_of_sorted _ hsorted p q hp hq
    rw [hpk, hqk]
    simp only [lexLt, Bool.or_eq_true, decide_eq_true_eq]
    left; omega

/-- Witness of C7: the words "b", "Zed", "a", "b" give the lines Zed=1, a=1, b=2. -/
theorem C7_sorted_output_witness :
    (1 ≤ 8 ∧ ∀ w ∈ [[98], [90, 101, 100], [97], [98]],
      w ≠ ([] : List Nat) ∧ ∀ c ∈ w, isWordChar c = true) ∧
    (∃ t1 out, setAndIncAll (some (chash_create 8)) [[98], [90, 101, 100], [97], [98]] =
        some (List.replicate [[98], [90, 101, 100], [97], [98]].length true, some t1) ∧
      out = qsort cmpFunc (chash_getKeyVals (some t1)) ∧
      out.Pairwise (fun a b => lexLt a.key b.key = true) ∧
      (out.map keyValPair.key).Nodup ∧
      (∀ w, w ∈ out.map keyValPair.key ↔ w ∈ [[98], [90, 101, 100], [97], [98]]) ∧
      (∀ p ∈ out, p.val = List.count p.key [[98], [90, 101, 100], [97], [98]] % 2 ^ 32) ∧
      main_output (some t1) = out.map (fun p => p.key ++ [61] ++ decimal p.val ++ [10]) ∧
      (∀ p q u l s1 s2, p ∈ out → q ∈ out → p.key = u :: s1 → q.key = l :: s2 →
        65 ≤ u → u ≤ 90 → 97 ≤ l → l ≤ 122 → List.Sublist [p, q] out)) ∧
    (setAndIncAll (some (chash_create 8)) [[98], [90, 101, 100], [97], [98]]).map
        (fun r => main_output r.2) =
      some [[90, 101, 100, 61, 49, 10], [97, 61, 49, 10], [98, 61, 50, 10]] :=
  ⟨⟨by decide, by decide⟩,
   C7_sorted_output 8 [[98], [90, 101, 100], [97], [98]] (by decide) (by decide),
   by decide⟩
/-! ## Workers on the table -/

theorem spanBytes_length (input : List Nat) (s : Int × Int) (h : validSpan input s) :
    (spanBytes input s).length = (s.2 - s.1 + 1).toNat ∧
      (s.2 - s.1 + 1).toNat ≠ 0 ∧
      (s.2 - s.1 + 1).toNat ≤ (input.drop s.1.toNat).length := by
  obtain ⟨h0, h1, h2⟩ := h
  have hlen : (input.drop s.1.toNat).length = input.length - s.1.toNat := List.length_drop _ _
  refine ⟨?_, by omega, by omega⟩
  simp only [spanBytes, List.length_take, hlen]
  omega

theorem newNode_span (k : List Nat) (ks : Nat) (hle : ks ≤ k.length) :
    newNode k ks = newNode (k.take ks) (k.take ks).length := by
  have hl : (k.take ks).length = ks := by simp [List.length_take, hle]
  simp [newNode, hl, hash_take, List.take_take]

/-- The calls of a worker with valid spans on a well-formed table with free locks
that counts `done`: they all return `true` and the table then counts `done`
followed by the worker's tokens. -/
theorem applyCalls_spec (input : List Nat) : ∀ (spans : List (Int × Int))
    (done : List (List Nat)) (t : chash),
    TableOK t → locksFree t → Counts t done → (∀ s ∈ spans, validSpan input s) →
    ∃ t1, applyCalls input spans (some t) = some (some t1) ∧
      TableOK t1 ∧ locksFree t1 ∧ Counts t1 (done ++ spans.map (spanBytes input)) ∧
      t1.size = t.size := by
  intro spans
  induction spans with
  | nil =>
    intro done t hok hfree hcnt _
    exact ⟨t, rfl, hok, hfree, by simpa using hcnt, rfl⟩
  | cons s rest ih =>
    intro done t hok hfree hcnt hv
    obtain ⟨hl1, hl2, hl3⟩ := spanBytes_length input s (hv s (by simp))
    obtain ⟨c, c1, hc, hcall, hstep⟩ :=
      setAndInc_step t hok (input.drop s.1.toNat) (s.2 - s.1 + 1).toNat hl2 hl3 (hfree _)
    have hok1 := setAndInc_step_ok t hok _ _ hl2 hl3 hc hstep
    have hkey : (input.drop s.1.toNat).take (s.2 - s.1 + 1).toNat = spanBytes input s := rfl
    have hh : hash (input.drop s.1.toNat) (s.2 - s.1 + 1).toNat =
        hash (spanBytes input s) (spanBytes input s).length := by
      rw [hl1, ← hkey, hash_take]
    rw [newNode_span _ _ hl3, hkey] at hstep
    rw [hh] at hc hcall hok1
    have hcnt1 := Counts_step t hok done hcnt (spanBytes input s) hc hstep
    obtain ⟨t2, hrun, hok2, hfree2, hcnt2, hsz⟩ :=
      ih (done ++ [spanBytes input s]) _ hok1 hfree hcnt1 (fun x hx => hv x (by simp [hx]))
    refine ⟨t2, ?_, hok2, hfree2, by simpa using hcnt2, hsz⟩
    simp only [applyCalls, hcall, hrun]

/-- All workers with valid spans, run one after the other on a well-formed table with
free locks. -/
theorem runWorkers_spec (input : List Nat) : ∀ (tis : List thread_info)
    (done : List (List Nat)) (t : chash),
    TableOK t → locksFree t → Counts t done →
    (∀ ti ∈ tis, ∀ s ∈ WorkThread ti input, validSpan input s) →
    ∃ t1, runWorkers input tis (some t) = some (some t1) ∧
      TableOK t1 ∧ locksFree t1 ∧ Counts t1 (done ++ allTokens tis input) ∧
      t1.size = t.size := by
  intro tis
  induction tis with
  | nil =>
    intro done t hok hfree hcnt _
    exact ⟨t, rfl, hok, hfree, by simpa [allTokens] using hcnt, rfl⟩
  | cons ti rest ih =>
    intro done t hok hfree hcnt hv
    obtain ⟨t1, hrun1, hok1, hfree1, hcnt1, hsz1⟩ :=
      applyCalls_spec input (WorkThread ti input) done t hok hfree hcnt (hv ti (by simp))
    obtain ⟨t2, hrun2, hok2, hfree2, hcnt2, hsz2⟩ :=
      ih _ t1 hok1 hfree1 hcnt1 (fun x hx => hv x (by simp [hx]))
    refine ⟨t2, ?_, hok2, hfree2, ?_, hsz2.trans hsz1⟩
    · simp only [runWorkers, hrun1, hrun2]
    · simpa [allTokens, workerTokens, List.append_assoc] using hcnt2
theorem mem_expectedPairs (keys : List (List Nat)) (p : keyValPair) :
    p ∈ expectedPairs keys ↔ p.key ∈ keys ∧ p.val = keys.count p.key % 2 ^ 32 := by
  simp only [expectedPairs, List.mem_map, List.mem_dedup]
  constructor
  · rintro ⟨k, hk, rfl⟩
    exact ⟨hk, rfl⟩
  · rintro ⟨hk, hv⟩
    refine ⟨p.key, hk, ?_⟩
    cases p
    simp_all

theorem expectedPairs_nodup (keys : List (List Nat)) : (expectedPairs keys).Nodup := by
  apply List.Nodup.map _ (List.nodup_dedup keys)
  intro a b h
  exact congrArg keyValPair.key h

/-- The enumeration of a well-formed table that counts `keys` is, up to order, the
list of the distinct keys with their numbers of occurrences. -/
theorem getKeyVals_perm (t : chash) (hok : TableOK t) (keys : List (List Nat))
    (hcnt : Counts t keys) : (chash_getKeyVals (some t)).Perm (expectedPairs keys) := by
  rw [List.perm_ext_iff_of_nodup (getKeyVals_nodup t hok).of_map (expectedPairs_nodup keys)]
  intro p
  rw [getKeyVals_counts t hok keys hcnt, mem_expectedPairs]

theorem expectedPairs_perm {keys1 keys2 : List (List Nat)} (h : keys1.Perm keys2) :
    (expectedPairs keys1).Perm (expectedPairs keys2) := by
  rw [List.perm_ext_iff_of_nodup (expectedPairs_nodup keys1) (expectedPairs_nodup keys2)]
  intro p
  have hc : List.count p.key keys1 = List.count p.key keys2 := List.Perm.countP_eq _ h
  rw [mem_expectedPairs, mem_expectedPairs, h.mem_iff, hc]

set_option maxRecDepth 100000 in
/-- C11: scenario B. The 20-byte buffer "hello, world! hello." is split for 4 workers
into [0,4], [5,9], [10,14], [15,19]; the workers record hello, world, hello, and on a
fresh table of any number of rows (at least one) their calls, run worker after
worker or in any other order, leave exactly the entries hello=2 and world=1. -/
theorem C11_scenario_B (rowCount : Nat) (hrows : 1 ≤ rowCount) :
    partition 20 4 =
      [{ thread_id := 0, start_idx := 0, end_idx := 4, last_idx := 19 },
       { thread_id := 1, start_idx := 5, end_idx := 9, last_idx := 19 },
       { thread_id := 2, start_idx := 10, end_idx := 14, last_idx := 19 },
       { thread_id := 3, start_idx := 15, end_idx := 19, last_idx := 19 }] ∧
    (∃ t1, runWorkers bufferB (partition 20 4) (some (chash_create rowCount)) = some (some t1) ∧
      (chash_getKeyVals (some t1)).Perm
        [{ key := [104, 101, 108, 108, 111], val := 2 },
         { key := [119, 111, 114, 108, 100], val := 1 }]) ∧
    (∀ calls : List (List Nat), calls.Perm (allTokens (partition 20 4) bufferB) →
      ∃ t2, setAndIncAll (some (chash_create rowCount)) calls =
          some (List.replicate calls.length true, some t2) ∧
        (chash_getKeyVals (some t2)).Perm
          [{ key := [104, 101, 108, 108, 111], val := 2 },
           { key := [119, 111, 114, 108, 100], val := 1 }]) := by
  have htok : allTokens (partition 20 4) bufferB =
      [[104, 101, 108, 108, 111], [119, 111, 114, 108, 100], [104, 101, 108, 108, 111]] := by
    decide
  have hexp : (expectedPairs (allTokens (partition 20 4) bufferB)).Perm
      [{ key := [104, 101, 108, 108, 111], val := 2 },
       { key := [119, 111, 114, 108, 100], val := 1 }] := by
    rw [htok]; decide
  refine ⟨by decide, ?_, ?_⟩
  · obtain ⟨t1, hrun, hok, _, hcnt, _⟩ :=
      runWorkers_spec bufferB (partition 20 4) [] (chash_create rowCount)
        (chash_create_ok rowCount hrows) (chash_create_free rowCount) (Counts_create rowCount)
        (by decide)
    rw [List.nil_append] at hcnt
    exact ⟨t1, hrun, (getKeyVals_perm t1 hok _ hcnt).trans hexp⟩
  · intro calls hperm
    obtain ⟨t2, hrun, hok, _, hcnt, _⟩ :=
      setAndIncAll_spec calls [] (chash_create rowCount) (chash_create_ok rowCount hrows)
        (chash_create_free rowCount) (Counts_create rowCount)
        (by
          intro k hk
          have := hperm.mem_iff.1 hk
          rw [htok] at this
          intro hnil
          subst hnil
          revert this
          decide)
    rw [List.nil_append] at hcnt
    exact ⟨t2, hrun, ((getKeyVals_perm t2 hok _ hcnt).trans (expectedPairs_perm hperm)).trans hexp⟩
set_option maxRecDepth 100000 in
/-- Witness of C11: the table of `main`, 5000 rows, and the output printed from a table
of 64 rows. -/
theorem C11_scenario_B_witness :
    1 ≤ 5000 ∧
    (partition 20 4 =
      [{ thread_id := 0, start_idx := 0, end_idx := 4, last_idx := 19 },
       { thread_id := 1, start_idx := 5, end_idx := 9, last_idx := 19 },
       { thread_id := 2, start_idx := 10, end_idx := 14, last_idx := 19 },
       { thread_id := 3, start_idx := 15, end_idx := 19, last_idx := 19 }] ∧
    (∃ t1, runWorkers bufferB (partition 20 4) (some (chash_create 5000)) = some (some t1) ∧
      (chash_getKeyVals (some t1)).Perm
        [{ key := [104, 101, 108, 108, 111], val := 2 },
         { key := [119, 111, 114, 108, 100], val := 1 }]) ∧
    (∀ calls : List (List Nat), calls.Perm (allTokens (partition 20 4) bufferB) →
      ∃ t2, setAndIncAll (some (chash_create 5000)) calls =
          some (List.replicate calls.length true, some t2) ∧
        (chash_getKeyVals (some t2)).Perm
          [{ key := [104, 101, 108, 108, 111], val := 2 },
           { key := [119, 111, 114, 108, 100], val := 1 }])) ∧
    (runWorkers bufferB (partition 20 4) (some (chash_create 64))).map
        (fun r => main_output r) =
      some [[104, 101, 108, 108, 111, 61, 50, 10], [119, 111, 114, 108, 100, 61, 49, 10]] :=
  ⟨by decide, C11_scenario_B 5000 (by decide), by decide⟩

set_option maxRecDepth 100000 in
/-- C12: scenario A. The 7-byte buffer "abc abc" is split for 2 workers into [0,2]
and [3,6]; the workers record abc twice, the second one being the word that ends at
the last index without a separator after it, and on a fresh table of any number of
rows (at least one) their calls, run worker after worker or in any other order,
leave exactly one entry, abc=2. -/
theorem C12_scenario_A (rowCount : Nat) (hrows : 1 ≤ rowCount) :
    partition 7 2 =
      [{ thread_id := 0, start_idx := 0, end_idx := 2, last_idx := 6 },
       { thread_id := 1, start_idx := 3, end_idx := 6, last_idx := 6 }] ∧
    (partition 7 2).map (fun ti => WorkThread ti bufferA) = [[(0, 2)], [(4, 6)]] ∧
    (∃ t1, runWorkers bufferA (partition 7 2) (some (chash_create rowCount)) = some (some t1) ∧
      chash_getKeyVals (some t1) = [{ key := [97, 98, 99], val := 2 }]) ∧
    (∀ calls : List (List Nat), calls.Perm (allTokens (partition 7 2) bufferA) →
      ∃ t2, setAndIncAll (some (chash_create rowCount)) calls =
          some (List.replicate calls.length true, some t2) ∧
        chash_getKeyVals (some t2) = [{ key := [97, 98, 99], val := 2 }]) := by
  have htok : allTokens (partition 7 2) bufferA = [[97, 98, 99], [97, 98, 99]] := by decide
  have hexp : expectedPairs (allTokens (partition 7 2) bufferA) =
      [{ key := [97, 98, 99], val := 2 }] := by
    rw [htok]; decide
  refine ⟨by decide, by decide, ?_, ?_⟩
  · obtain ⟨t1, hrun, hok, _, hcnt, _⟩ :=
      runWorkers_spec bufferA (partition 7 2) [] (chash_create rowCount)
        (chash_create_ok rowCount hrows) (chash_create_free rowCount) (Counts_create rowCount)
        (by decide)
    rw [List.nil_append] at hcnt
    have hp := getKeyVals_perm t1 hok _ hcnt
    rw [hexp] at hp
    exact ⟨t1, hrun, List.perm_singleton.1 hp⟩
  · intro calls hperm
    obtain ⟨t2, hrun, hok, _, hcnt, _⟩ :=
      setAndIncAll_spec calls [] (chash_create rowCount) (chash_create_ok rowCount hrows)
        (chash_create_free rowCount) (Counts_create rowCount)
        (by
          intro k hk
          have := hperm.mem_iff.1 hk
          rw [htok] at this
          intro hnil
          subst hnil
          revert this
          decide)
    rw [List.nil_append] at hcnt
    have hp := (getKeyVals_perm t2 hok _ hcnt).trans (expectedPairs_perm hperm)
    rw [hexp] at hp
    exact ⟨t2, hrun, List.perm_singleton.1 hp⟩

set_option maxRecDepth 100000 in
/-- Witness of C12: the table of `main`, 5000 rows, and the output printed from a table
of 64 rows. -/
theorem C12_scenario_A_witness :
    1 ≤ 5000 ∧
    (partition 7 2 =
      [{ thread_id := 0, start_idx := 0, end_idx := 2, last_idx := 6 },
       { thread_id := 1, start_idx := 3, end_idx := 6, last_idx := 6 }] ∧
    (partition 7 2).map (fun ti => WorkThread ti bufferA) = [[(0, 2)], [(4, 6)]] ∧
    (∃ t1, runWorkers bufferA (partition 7 2) (some (chash_create 5000)) = some (some t1) ∧
      chash_getKeyVals (some t1) = [{ key := [97, 98, 99], val := 2 }]) ∧
    (∀ calls : List (List Nat), calls.Perm (allTokens (partition 7 2) bufferA) →
      ∃ t2, setAndIncAll (some (chash_create 5000)) calls =
          some (List.replicate calls.length true, some t2) ∧
        chash_getKeyVals (some t2) = [{ key := [97, 98, 99], val := 2 }])) ∧
    (runWorkers bufferA (partition 7 2) (some (chash_create 64))).map
        (fun r => main_output r) = some [[97, 98, 99, 61, 50, 10]] :=
  ⟨by decide, C12_scenario_A 5000 (by decide), by decide⟩
set_option maxRecDepth 100000 in
/-- C13, the code on scenario C with the 10-byte buffer "abc" followed by 7 blanks:
50 requested workers are clamped to 10 ranges of one byte; the workers of bytes 0, 1
and 2 record "abc", "bc" and "c", a single worker records "abc" only, and the tables
differ. -/
theorem C13_scenario_C_abc :
    (partition 10 50).map (fun ti => (ti.start_idx, ti.end_idx)) =
      [(0, 0), (1, 1), (2, 2), (3, 3), (4, 4), (5, 5), (6, 6), (7, 7), (8, 8), (9, 9)] ∧
    allTokens (partition 10 50) [97, 98, 99, 32, 32, 32, 32, 32, 32, 32] =
      [[97, 98, 99], [98, 99], [99]] ∧
    allTokens (partition 10 1) [97, 98, 99, 32, 32, 32, 32, 32, 32, 32] = [[97, 98, 99]] ∧
    (runWorkers [97, 98, 99, 32, 32, 32, 32, 32, 32, 32] (partition 10 50)
        (some (chash_create 1))).map (fun r => chash_getKeyVals r) =
      some [{ key := [97, 98, 99], val := 1 }, { key := [98, 99], val := 1 },
            { key := [99], val := 1 }] ∧
    (runWorkers [97, 98, 99, 32, 32, 32, 32, 32, 32, 32] (partition 10 1)
        (some (chash_create 1))).map (fun r => chash_getKeyVals r) =
      some [{ key := [97, 98, 99], val := 1 }] := by
  decide
/-! ## The hash function -/

theorem hashRound_eq_jenkinsRound (h b : Nat) (hb : b < 128) :
    hashRound h b = jenkinsRound h b := by
  have hc : charToU32 b = b := by
    have : b % 256 = b := Nat.mod_eq_of_lt (by omega)
    simp [charToU32, this, hb]
  simp only [hashRound, jenkinsRound, hc, u32, Nat.add_mod_mod]

theorem foldl_hashRound_eq : ∀ (key : List Nat) (h : Nat), (∀ b ∈ key, b < 128) →
    key.foldl hashRound h = key.foldl jenkinsRound h
  | [], _, _ => rfl
  | b :: bs, h, hb => by
    simp only [List.foldl_cons]
    rw [hashRound_eq_jenkinsRound h b (hb b (by simp))]
    exact foldl_hashRound_eq bs _ (fun x hx => hb x (by simp [hx]))

/-- On keys of 7-bit bytes, which include every alphanumeric word, `hash` is the
Jenkins one-at-a-time hash. -/
theorem hash_eq_jenkins_of_ascii (key : List Nat) (hb : ∀ b ∈ key, b < 128) :
    hash key key.length = jenkinsOneAtATime key := by
  simp only [hash, jenkinsOneAtATime, List.take_length, foldl_hashRound_eq key 0 hb, u32,
    Nat.add_mod_mod]

/-- C15, counterexample to the claim as stated: "a" hashes to 0xca2e9442 under `hash`
and under the one-at-a-time hash over byte values, but for the one-byte key 0x80
`hash` adds the sign-extended `char` and returns 3273477671 where the hash over byte
values gives 662687451; likewise for the two bytes 0xc3 0xa9. -/
theorem C15_hash_high_byte :
    hash [97] 1 = 0xca2e9442 ∧ jenkinsOneAtATime [97] = 0xca2e9442 ∧
    hash [128] 1 = 3273477671 ∧ jenkinsOneAtATime [128] = 662687451 ∧
    hash [195, 169] 2 = 26298542 ∧ jenkinsOneAtATime [195, 169] = 2928017647 ∧
    hash [128] 1 ≠ jenkinsOneAtATime [128] := by
  decide
theorem hashRound_eq (h b : Nat) : hashRound h b = jenkinsRound h (charToU32 b) := by
  simp only [hashRound, jenkinsRound, u32, Nat.add_mod_mod]

theorem foldl_hashRound_map : ∀ (key : List Nat) (h : Nat),
    key.foldl hashRound h = (key.map charToU32).foldl jenkinsRound h
  | [], _ => rfl
  | b :: bs, h => by
    simp only [List.foldl_cons, List.map_cons]
    rw [hashRound_eq h b]
    exact foldl_hashRound_map bs _

/-- C15, as amended: `hash(key, len)` is the Jenkins one-at-a-time hash in arithmetic
modulo `2 ^ 32` of the first `len` bytes, each byte taken as its plain `char` value
converted to `uint32_t` (the byte itself below 0x80, sign-extended from 0x80 on); so
for keys of bytes below 0x80 it is the hash over the byte values. -/
theorem C15_hash_definition (key : List Nat) (len : Nat) :
    hash key len = jenkinsOneAtATime ((key.take len).map charToU32) ∧
    ((∀ b ∈ key.take len, b < 128) → hash key len = jenkinsOneAtATime (key.take len)) := by
  have h1 : hash key len = jenkinsOneAtATime ((key.take len).map charToU32) := by
    simp only [hash, jenkinsOneAtATime, foldl_hashRound_map, u32, Nat.add_mod_mod]
  refine ⟨h1, ?_⟩
  intro hb
  have hmap : (key.take len).map charToU32 = key.take len := by
    conv_rhs => rw [← List.map_id (key.take len)]
    apply List.map_congr_left
    intro b hmem
    have hlt := hb b hmem
    have hmod : b % 256 = b := Nat.mod_eq_of_lt (by omega)
    simp [charToU32, hmod, hlt]
  rw [h1, hmap]

/-- Witness of C15 as amended: the key "a" hashes to 0xca2e9442. -/
theorem C15_hash_definition_witness :
    (∀ b ∈ [97].take 1, b < 128) ∧
    (hash [97] 1 = jenkinsOneAtATime (([97].take 1).map charToU32) ∧
    ((∀ b ∈ [97].take 1, b < 128) → hash [97] 1 = jenkinsOneAtATime ([97].take 1))) ∧
    hash [97] 1 = 0xca2e9442 :=
  ⟨by decide, C15_hash_definition [97] 1, by decide⟩

/-! ## Frame of a call -/

/-- C17: a successful `chash_setAndInc(key)` on a table with one chain per row and at
least one row keeps `size`, the mutexes and every row other than
`hash(key) mod size`; in that row either the first node matching the key gets its
count incremented (in `uint32_t` arithmetic) with every node keeping its place, key,
length and stored hash, or no node matches, all nodes are unchanged and one new node
with a copy of the key and count 1 is linked at the tail. -/
theorem C17_frame (t t1 : chash) (k : List Nat) (ks : Nat) (a : Bool)
    (hlen : t.rows.length = t.size) (hpos : 1 ≤ t.size)
    (hcall : chash_setAndInc (some t) (some k) ks a = some (true, some t1)) :
    t1.size = t.size ∧ t1.row_locks = t.row_locks ∧ t1.rows.length = t.rows.length ∧
    (∀ r : Nat, r ≠ hash k ks % t.size → t1.rows[r]? = t.rows[r]?) ∧
    ∃ c c1, t.rows[hash k ks % t.size]? = some c ∧ t1.rows[hash k ks % t.size]? = some c1 ∧
      ((∃ pre n post, c = pre ++ n :: post ∧
          isNodeMatchForKey n (some k) ks (hash k ks) = true ∧
          (∀ m ∈ pre, isNodeMatchForKey m (some k) ks (hash k ks) = false) ∧
          c1 = pre ++ { key := n.key, key_size := n.key_size, val := (n.val + 1) % 2 ^ 32,
                        hash := n.hash } :: post) ∨
       ((∀ m ∈ c, isNodeMatchForKey m (some k) ks (hash k ks) = false) ∧
          c1 = c ++ [{ key := k.take ks, key_size := ks, val := 1, hash := hash k ks }])) := by
  have hks : ks ≠ 0 := by
    intro h0
    simp [chash_setAndInc, h0] at hcall
  have hlt : hash k ks % t.size < t.rows.length := by
    rw [hlen]; exact Nat.mod_lt _ hpos
  have hrow : t.rows[hash k ks % t.size]? = some (t.rows[hash k ks % t.size]) :=
    List.getElem?_eq_getElem hlt
  have hgetD : t.rows.getD (hash k ks % t.size) [] = t.rows[hash k ks % t.size] := by
    rw [List.getD_eq_getElem?_getD, hrow]; rfl
  rw [setAndInc_eq t k ks a hks (by omega), hgetD] at hcall
  split_ifs at hcall with hl
  cases hw : walkRow k ks (hash k ks) a (t.rows[hash k ks % t.size]) with
  | none =>
    rw [hw] at hcall
    simp at hcall
  | some c1 =>
    rw [hw] at hcall
    simp only [Option.some.injEq, Prod.mk.injEq, true_and] at hcall
    subst hcall
    refine ⟨rfl, rfl, by simp, ?_, _, c1, hrow, ?_, ?_⟩
    · intro r hr
      exact List.getElem?_set_ne (Ne.symm hr)
    · simp [List.getElem?_set, hlt]
    · rcases walkRow_cases k ks a _ _ hw with ⟨pre, n, post, hc, hm, hpre, hc1⟩ | ⟨hall, _, hc1⟩
      · exact Or.inl ⟨pre, n, post, hc, hm, hpre, hc1⟩
      · exact Or.inr ⟨hall, hc1⟩

/-- Witness of C17: on the table holding "aqaa" a call for "elue" (same hash) links a
new node behind it. -/
theorem C17_frame_witness :
    (tableAqaa.rows.length = tableAqaa.size ∧ 1 ≤ tableAqaa.size ∧
      chash_setAndInc (some tableAqaa) (some [101, 108, 117, 101]) 4 true =
        some (true, some tableAqaaElue)) ∧
    (tableAqaaElue.size = tableAqaa.size ∧ tableAqaaElue.row_locks = tableAqaa.row_locks ∧
    tableAqaaElue.rows.length = tableAqaa.rows.length ∧
    (∀ r : Nat, r ≠ hash [101, 108, 117, 101] 4 % tableAqaa.size →
      tableAqaaElue.rows[r]? = tableAqaa.rows[r]?) ∧
    ∃ c c1, tableAqaa.rows[hash [101, 108, 117, 101] 4 % tableAqaa.size]? = some c ∧
      tableAqaaElue.rows[hash [101, 108, 117, 101] 4 % tableAqaa.size]? = some c1 ∧
      ((∃ pre n post, c = pre ++ n :: post ∧
          isNodeMatchForKey n (some [101, 108, 117, 101]) 4 (hash [101, 108, 117, 101] 4) = true ∧
          (∀ m ∈ pre,
            isNodeMatchForKey m (some [101, 108, 117, 101]) 4 (hash [101, 108, 117, 101] 4) =
              false) ∧
          c1 = pre ++ { key := n.key, key_size := n.key_size, val := (n.val + 1) % 2 ^ 32,
                        hash := n.hash } :: post) ∨
       ((∀ m ∈ c,
            isNodeMatchForKey m (some [101, 108, 117, 101]) 4 (hash [101, 108, 117, 101] 4) =
              false) ∧
          c1 = c ++ [{ key := [101, 108, 117, 101].take 4, key_size := 4, val := 1,
                       hash := hash [101, 108, 117, 101] 4 }]))) :=
  ⟨⟨by decide, by decide, by decide⟩,
   C17_frame tableAqaa tableAqaaElue [101, 108, 117, 101] 4 true (by decide) (by decide)
     (by decide)⟩
/-! ## Order of the calls -/

/-- Sorting two lists of pairs that are permutations of each other, with pairwise
distinct keys without zero byte, gives the same list. -/
theorem qsort_cmpFunc_perm (l1 l2 : List keyValPair) (hperm : l1.Perm l2)
    (hnz : ∀ p ∈ l1, ∀ x ∈ p.key, x ≠ 0) (hnd : (l1.map keyValPair.key).Nodup) :
    qsort cmpFunc l1 = qsort cmpFunc l2 := by
  have hs1 := qsort_cmpFunc_strict l1 hnz hnd
  have hs2 := qsort_cmpFunc_strict l2 (fun p hp => hnz p (hperm.mem_iff.2 hp))
    ((hperm.map _).nodup_iff.1 hnd)
  haveI : IsAntisymm keyValPair (fun a b => lexLt a.key b.key = true) :=
    ⟨fun a b h1 h2 => by
      have := lexLt_trans _ _ _ h1 h2
      rw [lexLt_irrefl] at this
      cases this⟩
  exact List.eq_of_perm_of_sorted
    (((qsort_perm cmpFunc l1).trans hperm).trans (qsort_perm cmpFunc l2).symm) hs1 hs2

/-- C19: two sequences of non-empty keys that are permutations of each other, applied
to fresh tables of the same number of rows (at least one), give tables with the
same (key, count) pairs, in possibly different enumeration order; when no key holds
a zero byte, as is the case for the words of the workers, the sorted output is the
same. -/
theorem C19_order_independence (rowCount : Nat) (keys1 keys2 : List (List Nat))
    (hrows : 1 ≤ rowCount) (hperm : keys1.Perm keys2) (hne : ∀ k ∈ keys1, k ≠ []) :
    ∃ t1 t2,
      setAndIncAll (some (chash_create rowCount)) keys1 =
        some (List.replicate keys1.length true, some t1) ∧
      setAndIncAll (some (chash_create rowCount)) keys2 =
        some (List.replicate keys2.length true, some t2) ∧
      (∀ p, p ∈ chash_getKeyVals (some t1) ↔ p ∈ chash_getKeyVals (some t2)) ∧
      (chash_getKeyVals (some t1)).Perm (chash_getKeyVals (some t2)) ∧
      ((∀ k ∈ keys1, ∀ b ∈ k, b ≠ 0) → main_output (some t1) = main_output (some t2)) := by
  obtain ⟨t1, hrun1, hok1, _, hcnt1, _⟩ :=
    setAndIncAll_spec keys1 [] (chash_create rowCount) (chash_create_ok rowCount hrows)
      (chash_create_free rowCount) (Counts_create rowCount) hne
  obtain ⟨t2, hrun2, hok2, _, hcnt2, _⟩ :=
    setAndIncAll_spec keys2 [] (chash_create rowCount) (chash_create_ok rowCount hrows)
      (chash_create_free rowCount) (Counts_create rowCount)
      (fun k hk => hne k (hperm.mem_iff.2 hk))
  rw [List.nil_append] at hcnt1 hcnt2
  have hp : (chash_getKeyVals (some t1)).Perm (chash_getKeyVals (some t2)) :=
    ((getKeyVals_perm t1 hok1 keys1 hcnt1).trans (expectedPairs_perm hperm)).trans
      (getKeyVals_perm t2 hok2 keys2 hcnt2).symm
  refine ⟨t1, t2, hrun1, hrun2, fun p => hp.mem_iff, hp, ?_⟩
  intro hnz
  unfold main_output
  rw [qsort_cmpFunc_perm _ _ hp ?_ (getKeyVals_nodup t1 hok1)]
  intro p hp1 x hx
  exact hnz p.key ((getKeyVals_counts t1 hok1 keys1 hcnt1 p).1 hp1).1 x hx

set_option maxRecDepth 100000 in
/-- Witness of C19: the words hello, world, hello and their order world, hello, hello
on tables of 7 rows. -/
theorem C19_order_independence_witness :
    (1 ≤ 7 ∧
      List.Perm [[104, 101, 108, 108, 111], [119, 111, 114, 108, 100], [104, 101, 108, 108, 111]]
        [[119, 111, 114, 108, 100], [104, 101, 108, 108, 111], [104, 101, 108, 108, 111]] ∧
      ∀ k ∈ [[104, 101, 108, 108, 111], [119, 111, 114, 108, 100], [104, 101, 108, 108, 111]],
        k ≠ ([] : List Nat)) ∧
    (∃ t1 t2,
      setAndIncAll (some (chash_create 7))
          [[104, 101, 108, 108, 111], [119, 111, 114, 108, 100], [104, 101, 108, 108, 111]] =
        some (List.replicate
          [[104, 101, 108, 108, 111], [119, 111, 114, 108, 100], [104, 101, 108, 108, 111]].length
          true, some t1) ∧
      setAndIncAll (some (chash_create 7))
          [[119, 111, 114, 108, 100], [104, 101, 108, 108, 111], [104, 101, 108, 108, 111]] =
        some (List.replicate
          [[119, 111, 114, 108, 100], [104, 101, 108, 108, 111], [104, 101, 108, 108, 111]].length
          true, some t2) ∧
      (∀ p, p ∈ chash_getKeyVals (some t1) ↔ p ∈ chash_getKeyVals (some t2)) ∧
      (chash_getKeyVals (some t1)).Perm (chash_getKeyVals (some t2)) ∧
      ((∀ k ∈ [[104, 101, 108, 108, 111], [119, 111, 114, 108, 100], [104, 101, 108, 108, 111]],
          ∀ b ∈ k, b ≠ 0) → main_output (some t1) = main_output (some t2))) ∧
    (setAndIncAll (some (chash_create 1)) [[97], [98], [97]]).map
        (fun r => chash_getKeyVals r.2) =
      some [{ key := [97], val := 2 }, { key := [98], val := 1 }] ∧
    (setAndIncAll (some (chash_create 1)) [[98], [97], [97]]).map
        (fun r => chash_getKeyVals r.2) =
      some [{ key := [98], val := 1 }, { key := [97], val := 2 }] :=
  ⟨⟨by decide, by decide, by decide⟩,
   C19_order_independence 7
     [[104, 101, 108, 108, 111], [119, 111, 114, 108, 100], [104, 101, 108, 108, 111]]
     [[119, 111, 114, 108, 100], [104, 101, 108, 108, 111], [104, 101, 108, 108, 111]]
     (by decide) (by decide) (by decide),
   by decide, by decide⟩
/-! ## The main loop of the worker -/

theorem scanLoop_nil_of_gt (input : List Nat) (end_idx last_idx : Int) (fuel : Nat) (curr : Int)
    (inWord : Bool) (ws : Int) (h : last_idx < curr) :
    scanLoop input end_idx last_idx fuel curr inWord ws = [] := by
  cases fuel with
  | zero => rfl
  | succ f => simp [scanLoop, not_le.2 h]

theorem scanLoop_break (input : List Nat) (end_idx last_idx : Int) (f : Nat) (curr ws : Int)
    (h : end_idx < curr) :
    scanLoop input end_idx last_idx f curr false ws = [] := by
  cases f with
  | zero => rfl
  | succ f => simp [scanLoop, h]

theorem scanLoop_start (input : List Nat) (end_idx last_idx : Int) (f : Nat) (curr ws : Int)
    (h1 : curr ≤ last_idx) (h2 : curr ≤ end_idx) (hw : isWordAt input curr = true) :
    scanLoop input end_idx last_idx (f + 1) curr false ws =
      scanLoop input end_idx last_idx f (curr + 1) true curr := by
  simp only [isWordAt] at hw
  simp [scanLoop, h1, not_lt.2 h2, hw]

theorem scanLoop_skip (input : List Nat) (end_idx last_idx : Int) (f : Nat) (curr ws : Int)
    (h1 : curr ≤ last_idx) (h2 : curr ≤ end_idx) (hw : isWordAt input curr = false) :
    scanLoop input end_idx last_idx (f + 1) curr false ws =
      scanLoop input end_idx last_idx f (curr + 1) false ws := by
  simp only [isWordAt] at hw
  simp [scanLoop, h1, not_lt.2 h2, hw]

theorem scanLoop_close (input : List Nat) (end_idx last_idx : Int) (f : Nat) (curr ws : Int)
    (h1 : curr ≤ last_idx) (hw : isWordAt input curr = false) :
    scanLoop input end_idx last_idx (f + 1) curr true ws =
      (ws, curr - 1) :: scanLoop input end_idx last_idx f (curr + 1) false ws := by
  simp only [isWordAt] at hw
  simp [scanLoop, h1, hw]

theorem scanLoop_close_last (input : List Nat) (end_idx last_idx : Int) (f : Nat) (ws : Int)
    (hw : isWordAt input last_idx = true) :
    scanLoop input end_idx last_idx (f + 1) last_idx true ws = [(ws, last_idx)] := by
  simp only [isWordAt] at hw
  simp [scanLoop, hw, scanLoop_nil_of_gt]

theorem scanLoop_continue (input : List Nat) (end_idx last_idx : Int) (f : Nat) (curr ws : Int)
    (h1 : curr < last_idx) (hw : isWordAt input curr = true) :
    scanLoop input end_idx last_idx (f + 1) curr true ws =
      scanLoop input end_idx last_idx f (curr + 1) true ws := by
  simp only [isWordAt] at hw
  simp [scanLoop, le_of_lt h1, hw, ne_of_lt h1]
theorem isWordAt_false_of_ne {input : List Nat} {i : Int} (h : ¬ isWordAt input i = true) :
    isWordAt input i = false := by
  simpa using h

/-- The spans emitted by the main loop from the state `(curr, inWord, word_start)`:
the word already open, closed where it ends, and every word that starts at an index
from `curr` to `end_idx`, before `last_idx`, where the loop is outside a word. -/
theorem scanLoop_mem (input : List Nat) (end_idx last_idx : Int) :
    ∀ (fuel : Nat) (curr : Int) (inWord : Bool) (ws : Int),
      last_idx + 1 - curr ≤ fuel →
      (inWord = true → ws < curr ∧ ∀ i, ws ≤ i → i < curr → isWordAt input i = true) →
      ∀ s e, (s, e) ∈ scanLoop input end_idx last_idx fuel curr inWord ws ↔
        (inWord = true ∧ curr ≤ last_idx ∧ s = ws ∧ closesAt input last_idx ws e) ∨
        (curr ≤ s ∧ s ≤ end_idx ∧ s < last_idx ∧ isWordAt input s = true ∧
          ((inWord = false ∧ s = curr) ∨ isWordAt input (s - 1) = false) ∧
          closesAt input last_idx s e) := by
  intro fuel
  induction fuel with
  | zero =>
    intro curr inWord ws hf _ s e
    simp only [scanLoop, List.not_mem_nil, false_iff]
    rintro (⟨_, h, _⟩ | ⟨h1, _, h3, _⟩) <;> omega
  | succ f ih =>
    intro curr inWord ws hf hinv s e
    by_cases hcl : curr ≤ last_idx
    · cases inWord with
      | false =>
        by_cases hbreak : end_idx < curr
        · rw [scanLoop_break _ _ _ _ _ _ hbreak]
          simp only [List.not_mem_nil, false_iff]
          rintro (⟨h, _⟩ | ⟨h1, h2, _⟩)
          · cases h
          · omega
        · have hce : curr ≤ end_idx := not_lt.1 hbreak
          by_cases hw : isWordAt input curr = true
          · rw [scanLoop_start _ _ _ _ _ _ hcl hce hw,
              ih (curr + 1) true curr (by omega)
                (fun _ => ⟨by omega, fun i h1 h2 => by
                  have : i = curr := by omega
                  rw [this]; exact hw⟩)]
            constructor
            · rintro (⟨_, h1, rfl, h3⟩ | ⟨h1, h2, h3, h4, h5, h6⟩)
              · exact Or.inr ⟨le_rfl, hce, by omega, hw, Or.inl ⟨rfl, rfl⟩, h3⟩
              · rcases h5 with ⟨h, _⟩ | h5
                · cases h
                · exact Or.inr ⟨by omega, h2, h3, h4, Or.inr h5, h6⟩
            · rintro (⟨h, _⟩ | ⟨h1, h2, h3, h4, h5, h6⟩)
              · cases h
              · by_cases hsc : s = curr
                · subst hsc
                  exact Or.inl ⟨rfl, by omega, rfl, h6⟩
                · rcases h5 with ⟨_, h⟩ | h5
                  · exact absurd h hsc
                  · exact Or.inr ⟨by omega, h2, h3, h4, Or.inr h5, h6⟩
          · have hw' := isWordAt_false_of_ne hw
            rw [scanLoop_skip _ _ _ _ _ _ hcl hce hw',
              ih (curr + 1) false ws (by omega) (fun h => by cases h)]
            constructor
            · rintro (⟨h, _⟩ | ⟨h1, h2, h3, h4, h5, h6⟩)
              · cases h
              · refine Or.inr ⟨by omega, h2, h3, h4, Or.inr ?_, h6⟩
                rcases h5 with ⟨_, h⟩ | h5
                · rw [h]; simpa using hw'
                · exact h5
            · rintro (⟨h, _⟩ | ⟨h1, h2, h3, h4, h5, h6⟩)
              · cases h
              · have hsc : s ≠ curr := by
                  rintro rfl
                  exact hw h4
                refine Or.inr ⟨by omega, h2, h3, h4, Or.inr ?_, h6⟩
                rcases h5 with ⟨_, h⟩ | h5
                · exact absurd h hsc
                · exact h5
      | true =>
        obtain ⟨hws, hall⟩ := hinv rfl
        by_cases hw : isWordAt input curr = true
        · by_cases hlast : curr = last_idx
          · rw [hlast] at hw hws hall ⊢
            rw [scanLoop_close_last _ _ _ _ _ hw, List.mem_singleton, Prod.mk.injEq]
            constructor
            · rintro ⟨hs, he⟩
              rw [hs, he]
              refine Or.inl ⟨rfl, le_rfl, rfl, by omega, le_rfl, ?_, Or.inl rfl⟩
              intro i h1 h2
              by_cases hi : i = last_idx
              · rw [hi]; exact hw
              · exact hall i h1 (by omega)
            · rintro (⟨_, _, hs, h1, h2, h3, h4⟩ | ⟨h1, _, h3, _⟩)
              · refine ⟨hs, ?_⟩
                rcases h4 with h4 | h4
                · exact h4
                · by_contra hel
                  by_cases he : e + 1 = last_idx
                  · rw [he, hw] at h4; cases h4
                  · have hlt : e + 1 < last_idx := by omega
                    rw [hall (e + 1) (by omega) hlt] at h4; cases h4
              · omega
          · have hlt : curr < last_idx := by omega
            rw [scanLoop_continue _ _ _ _ _ _ hlt hw,
              ih (curr + 1) true ws (by omega)
                (fun _ => ⟨by omega, fun i h1 h2 => by
                  by_cases hi : i = curr
                  · rw [hi]; exact hw
                  · exact hall i h1 (by omega)⟩)]
            constructor
            · rintro (⟨_, h1, rfl, h3⟩ | ⟨h1, h2, h3, h4, h5, h6⟩)
              · exact Or.inl ⟨rfl, hcl, rfl, h3⟩
              · rcases h5 with ⟨h, _⟩ | h5
                · cases h
                · exact Or.inr ⟨by omega, h2, h3, h4, Or.inr h5, h6⟩
            · rintro (⟨_, h1, rfl, h3⟩ | ⟨h1, h2, h3, h4, h5, h6⟩)
              · exact Or.inl ⟨rfl, by omega, rfl, h3⟩
              · rcases h5 with ⟨h, _⟩ | h5
                · cases h
                · have hsc : s ≠ curr := by
                    rintro rfl
                    rw [hall (s - 1) (by omega) (by omega)] at h5; cases h5
                  exact Or.inr ⟨by omega, h2, h3, h4, Or.inr h5, h6⟩
        · have hw' := isWordAt_false_of_ne hw
          rw [scanLoop_close _ _ _ _ _ _ hcl hw', List.mem_cons,
            ih (curr + 1) false ws (by omega) (fun h => by cases h), Prod.mk.injEq]
          constructor
          · rintro (⟨rfl, rfl⟩ | ⟨h, _⟩ | ⟨h1, h2, h3, h4, h5, h6⟩)
            · refine Or.inl ⟨rfl, hcl, rfl, by omega, by omega, ?_, Or.inr ?_⟩
              · intro i h1 h2
                exact hall i h1 (by omega)
              · rw [show curr - 1 + 1 = curr by omega]; exact hw'
            · cases h
            · refine Or.inr ⟨by omega, h2, h3, h4, Or.inr ?_, h6⟩
              rcases h5 with ⟨_, h⟩ | h5
              · rw [h]; simpa using hw'
              · exact h5
          · rintro (⟨_, _, rfl, h1, h2, h3, h4⟩ | ⟨h1, h2, h3, h4, h5, h6⟩)
            · left
              refine ⟨rfl, ?_⟩
              have he1 : e < curr := by
                by_contra hge
                exact hw (h3 curr (by omega) (by omega))
              rcases h4 with h4 | h4
              · omega
              · by_contra hne
                rw [hall (e + 1) (by omega) (by omega)] at h4; cases h4
            · rcases h5 with ⟨h, _⟩ | h5
              · cases h
              · have hsc : s ≠ curr := by
                  rintro rfl
                  exact hw h4
                exact Or.inr (Or.inr ⟨by omega, h2, h3, h4, Or.inr h5, h6⟩)
    · rw [scanLoop_nil_of_gt _ _ _ _ _ _ _ (not_le.1 hcl)]
      simp only [List.not_mem_nil, false_iff]
      rintro (⟨_, h, _⟩ | ⟨h1, _, h3, _⟩) <;> omega
/-- The fix-up loop of the start index: it only moves forward, over word characters,
and stops at `end_idx` or at a separator. -/
theorem fixStart_spec (input : List Nat) (end_idx : Int) :
    ∀ (fuel : Nat) (s : Int), end_idx - s ≤ fuel →
      s ≤ fixStart input end_idx fuel s ∧
      (s ≤ end_idx → fixStart input end_idx fuel s ≤ end_idx) ∧
      (∀ i, s ≤ i → i < fixStart input end_idx fuel s → isWordAt input i = true) ∧
      (end_idx ≤ fixStart input end_idx fuel s ∨
        isWordAt input (fixStart input end_idx fuel s) = false) := by
  intro fuel
  induction fuel with
  | zero =>
    intro s hf
    simp only [fixStart]
    exact ⟨le_rfl, fun h => h, fun i h1 h2 => by omega, Or.inl (by omega)⟩
  | succ f ih =>
    intro s hf
    by_cases hlt : s < end_idx
    · by_cases hw : isWordAt input s = true
      · have hstep : fixStart input end_idx (f + 1) s = fixStart input end_idx f (s + 1) := by
          simp only [isWordAt] at hw
          simp [fixStart, hlt, hw]
        rw [hstep]
        obtain ⟨h1, h2, h3, h4⟩ := ih (s + 1) (by omega)
        refine ⟨by omega, fun _ => h2 (by omega), ?_, h4⟩
        intro i hi1 hi2
        by_cases hi : i = s
        · rw [hi]; exact hw
        · exact h3 i (by omega) hi2
      · have hstep : fixStart input end_idx (f + 1) s = s := by
          have hw' := isWordAt_false_of_ne hw
          simp only [isWordAt] at hw'
          simp [fixStart, hw']
        rw [hstep]
        exact ⟨le_rfl, fun h => h, fun i h1 h2 => by omega, Or.inr (isWordAt_false_of_ne hw)⟩
    · have hstep : fixStart input end_idx (f + 1) s = s := by
        simp [fixStart, hlt]
      rw [hstep]
      exact ⟨le_rfl, fun h => h, fun i h1 h2 => by omega, Or.inl (by omega)⟩

/-- The start of the main loop: either the assigned start, which is then index 0, a
separator or the first byte of a word; or the assigned start lies inside a word and
the loop starts further on, behind word characters only, at a separator or at
`end_idx`. -/
theorem adjustedStart_spec (ti : thread_info) (input : List Nat) :
    (adjustedStart ti input = ti.start_idx ∧
      (ti.start_idx = 0 ∨ isWordAt input ti.start_idx = false ∨
        isWordAt input (ti.start_idx - 1) = false)) ∨
    (ti.start_idx ≠ 0 ∧ isWordAt input (ti.start_idx - 1) = true ∧
      ti.start_idx ≤ adjustedStart ti input ∧
      (ti.start_idx ≤ ti.end_idx → adjustedStart ti input ≤ ti.end_idx) ∧
      (∀ i, ti.start_idx ≤ i → i < adjustedStart ti input → isWordAt input i = true) ∧
      (ti.end_idx ≤ adjustedStart ti input ∨
        isWordAt input (adjustedStart ti input) = false)) := by
  unfold adjustedStart
  by_cases h0 : ti.start_idx = 0
  · left
    simp [h0]
  · by_cases h1 : isWordAt input ti.start_idx = true
    · by_cases h2 : isWordAt input (ti.start_idx - 1) = true
      · right
        have hc : (ti.start_idx ≠ 0 && isWordChar (readAt input ti.start_idx) &&
            isWordChar (readAt input (ti.start_idx - 1))) = true := by
          simp only [isWordAt] at h1 h2
          simp [h0, h1, h2]
        rw [if_pos hc]
        obtain ⟨a1, a2, a3, a4⟩ := fixStart_spec input ti.end_idx
          (ti.end_idx - ti.start_idx).toNat ti.start_idx (by omega)
        exact ⟨h0, h2, a1, a2, a3, a4⟩
      · left
        have h2' := isWordAt_false_of_ne h2
        refine ⟨?_, Or.inr (Or.inr h2')⟩
        simp only [isWordAt] at h2'
        simp [h2']
    · left
      have h1' := isWordAt_false_of_ne h1
      refine ⟨?_, Or.inr (Or.inl h1')⟩
      simp only [isWordAt] at h1'
      simp [h1']

theorem adjustedStart_ge (ti : thread_info) (input : List Nat) :
    ti.start_idx ≤ adjustedStart ti input := by
  rcases adjustedStart_spec ti input with ⟨h, _⟩ | ⟨_, _, h, _⟩
  · rw [h]
  · exact h

/-- The spans a worker records: a word is recorded when it starts at an index `s` from
the adjusted start to `end_idx`, before `last_idx`, with `s` the adjusted start or
the byte before `s` a separator; the span runs to the end of the word. -/
theorem WorkThread_mem (ti : thread_info) (input : List Nat) (s e : Int) :
    (s, e) ∈ WorkThread ti input ↔
      adjustedStart ti input ≤ s ∧ s ≤ ti.end_idx ∧ s < ti.last_idx ∧
        isWordAt input s = true ∧
        (s = adjustedStart ti input ∨ isWordAt input (s - 1) = false) ∧
        closesAt input ti.last_idx s e := by
  unfold WorkThread
  rw [scanLoop_mem input ti.end_idx ti.last_idx _ _ false 0 (by omega) (fun h => by cases h)]
  constructor
  · rintro (⟨h, _⟩ | ⟨h1, h2, h3, h4, h5, h6⟩)
    · cases h
    · refine ⟨h1, h2, h3, h4, ?_, h6⟩
      rcases h5 with ⟨_, h⟩ | h
      · exact Or.inl h
      · exact Or.inr h
  · rintro ⟨h1, h2, h3, h4, h5, h6⟩
    refine Or.inr ⟨h1, h2, h3, h4, ?_, h6⟩
    rcases h5 with h | h
    · exact Or.inl ⟨rfl, h⟩
    · exact Or.inr h

/-- The main loop emits spans with strictly increasing starts. -/
theorem scanLoop_sorted (input : List Nat) (end_idx last_idx : Int) :
    ∀ (fuel : Nat) (curr : Int) (inWord : Bool) (ws : Int),
      last_idx + 1 - curr ≤ fuel →
      (inWord = true → ws < curr ∧ ∀ i, ws ≤ i → i < curr → isWordAt input i = true) →
      (scanLoop input end_idx last_idx fuel curr inWord ws).Pairwise
        (fun a b => a.1 < b.1) := by
  intro fuel
  induction fuel with
  | zero => intro curr inWord ws _ _; simp [scanLoop]
  | succ f ih =>
    intro curr inWord ws hf hinv
    by_cases hcl : curr ≤ last_idx
    · cases inWord with
      | false =>
        by_cases hbreak : end_idx < curr
        · rw [scanLoop_break _ _ _ _ _ _ hbreak]; exact List.Pairwise.nil
        · have hce : curr ≤ end_idx := not_lt.1 hbreak
          by_cases hw : isWordAt input curr = true
          · rw [scanLoop_start _ _ _ _ _ _ hcl hce hw]
            exact ih (curr + 1) true curr (by omega)
              (fun _ => ⟨by omega, fun i h1 h2 => by
                have : i = curr := by omega
                rw [this]; exact hw⟩)
          · rw [scanLoop_skip _ _ _ _ _ _ hcl hce (isWordAt_false_of_ne hw)]
            exact ih (curr + 1) false ws (by omega) (fun h => by cases h)
      | true =>
        obtain ⟨hws, hall⟩ := hinv rfl
        by_cases hw : isWordAt input curr = true
        · by_cases hlast : curr = last_idx
          · rw [hlast] at hw ⊢
            rw [scanLoop_close_last _ _ _ _ _ hw]
            exact List.pairwise_singleton _ _
          · have hlt : curr < last_idx := by omega
            rw [scanLoop_continue _ _ _ _ _ _ hlt hw]
            exact ih (curr + 1) true ws (by omega)
              (fun _ => ⟨by omega, fun i h1 h2 => by
                by_cases hi : i = curr
                · rw [hi]; exact hw
                · exact hall i h1 (by omega)⟩)
        · rw [scanLoop_close _ _ _ _ _ _ hcl (isWordAt_false_of_ne hw)]
          refine List.pairwise_cons.2 ⟨?_, ih (curr + 1) false ws (by omega) (fun h => by cases h)⟩
          rintro ⟨s, e⟩ hmem
          rw [scanLoop_mem input end_idx last_idx f (curr + 1) false ws (by omega)
            (fun h => by cases h)] at hmem
          rcases hmem with ⟨h, _⟩ | ⟨h1, _⟩
          · cases h
          · show ws < s
            omega
    · rw [scanLoop_nil_of_gt _ _ _ _ _ _ _ (not_le.1 hcl)]; exact List.Pairwise.nil

theorem WorkThread_sorted (ti : thread_info) (input : List Nat) :
    (WorkThread ti input).Pairwise (fun a b => a.1 < b.1) :=
  scanLoop_sorted input ti.end_idx ti.last_idx _ _ false 0 (by omega) (fun h => by cases h)

theorem WorkThread_nodup (ti : thread_info) (input : List Nat) : (WorkThread ti input).Nodup :=
  (WorkThread_sorted ti input).imp (fun h heq => by rw [heq] at h; exact lt_irrefl _ h)
/-- Every byte of a valid span is read at an index of the span. -/
theorem mem_spanBytes (input : List Nat) (s : Int × Int) (hv : validSpan input s) (b : Nat)
    (hb : b ∈ spanBytes input s) : ∃ i, s.1 ≤ i ∧ i ≤ s.2 ∧ readAt input i = b := by
  obtain ⟨h0, h1, h2⟩ := hv
  obtain ⟨j, hj, rfl⟩ := List.mem_iff_getElem.1 hb
  have hjlen : j < (s.2 - s.1 + 1).toNat := by
    have := hj
    simp only [spanBytes, List.length_take] at this
    omega
  refine ⟨s.1 + j, by omega, by omega, ?_⟩
  have hidx : (s.1 + (j : Int)).toNat = s.1.toNat + j := by omega
  have hlt : s.1.toNat + j < input.length := by omega
  simp only [readAt, spanBytes, List.getElem_take, List.getElem_drop]
  rw [if_pos (by omega), hidx, List.getD_eq_getElem?_getD, List.getElem?_eq_getElem hlt]
  rfl

/-- C16: for a worker range with `0 ≤ start ≤ end ≤ last_idx` inside the buffer, every
token the worker records begins at an index of `[start, end]`, holds word characters
only, and runs to the end of its word: it ends at `last_idx` or the byte after it is
a separator, also when that lies past `end`. -/
theorem C16_token_ownership (ti : thread_info) (input : List Nat)
    (h0 : 0 ≤ ti.start_idx) (_h1 : ti.start_idx ≤ ti.end_idx) (_h2 : ti.end_idx ≤ ti.last_idx)
    (hlen : ti.last_idx < input.length) (s e : Int) (hmem : (s, e) ∈ WorkThread ti input) :
    ti.start_idx ≤ s ∧ s ≤ ti.end_idx ∧ s ≤ e ∧ e ≤ ti.last_idx ∧
    (∀ i, s ≤ i → i ≤ e → isWordChar (readAt input i) = true) ∧
    (∀ b ∈ spanBytes input (s, e), isWordChar b = true) ∧
    (e = ti.last_idx ∨ isWordChar (readAt input (e + 1)) = false) := by
  obtain ⟨a1, a2, _, _, _, c1, c2, c3, c4⟩ := (WorkThread_mem ti input s e).1 hmem
  have hge := adjustedStart_ge ti input
  refine ⟨by omega, a2, c1, c2, c3, ?_, c4⟩
  intro b hb
  obtain ⟨i, hi1, hi2, rfl⟩ := mem_spanBytes input (s, e) ⟨by show 0 ≤ s; omega, c1,
    by show e < (input.length : Int); omega⟩ b hb
  exact c3 i hi1 hi2

set_option maxRecDepth 100000 in
/-- Witness of C16: worker 0 of scenario B, range [0,4] of "hello, world! hello.",
records the span (0,4); worker 1, range [5,9], records "world" as the span (7,11),
past its end index 9. -/
theorem C16_token_ownership_witness :
    ((0 : Int) ≤ 5 ∧ (5 : Int) ≤ 9 ∧ (9 : Int) ≤ 19 ∧ (19 : Int) < bufferB.length ∧
      ((7 : Int), (11 : Int)) ∈
        WorkThread { thread_id := 1, start_idx := 5, end_idx := 9, last_idx := 19 } bufferB) ∧
    ((5 : Int) ≤ 7 ∧ (7 : Int) ≤ 9 ∧ (7 : Int) ≤ 11 ∧ (11 : Int) ≤ 19 ∧
    (∀ i : Int, 7 ≤ i → i ≤ 11 → isWordChar (readAt bufferB i) = true) ∧
    (∀ b ∈ spanBytes bufferB (7, 11), isWordChar b = true) ∧
    ((11 : Int) = 19 ∨ isWordChar (readAt bufferB (11 + 1)) = false)) :=
  ⟨⟨by decide, by decide, by decide, by decide, by decide⟩,
   C16_token_ownership { thread_id := 1, start_idx := 5, end_idx := 9, last_idx := 19 } bufferB
     (by decide) (by decide) (by decide) (by decide) 7 11 (by decide)⟩
/-! ## Indices read -/

theorem mem_guardReads (input : List Nat) (s i : Int) (h : i ∈ guardReads input s) :
    s ≠ 0 ∧ (i = s ∨ i = s - 1) := by
  unfold guardReads at h
  split_ifs at h with h1 h2
  · simp only [List.mem_cons, List.mem_singleton, List.not_mem_nil, or_false] at h
    exact ⟨h1, h⟩
  · simp only [List.mem_singleton] at h
    exact ⟨h1, Or.inl h⟩
  · cases h

theorem mem_fixStartReads (input : List Nat) (end_idx : Int) :
    ∀ (fuel : Nat) (s i : Int), i ∈ fixStartReads input end_idx fuel s → s ≤ i ∧ i < end_idx := by
  intro fuel
  induction fuel with
  | zero => intro s i h; cases h
  | succ f ih =>
    intro s i h
    simp only [fixStartReads] at h
    split_ifs at h with h1 h2
    · rcases List.mem_cons.1 h with rfl | h
      · exact ⟨le_rfl, h1⟩
      · have := ih (s + 1) i h
        omega
    · rcases List.mem_cons.1 h with rfl | h
      · exact ⟨le_rfl, h1⟩
      · cases h
    · cases h

theorem mem_scanLoopReads (input : List Nat) (end_idx last_idx : Int) :
    ∀ (fuel : Nat) (curr : Int) (inWord : Bool) (i : Int),
      i ∈ scanLoopReads input end_idx last_idx fuel curr inWord → curr ≤ i ∧ i ≤ last_idx := by
  intro fuel
  induction fuel with
  | zero => intro curr inWord i h; cases h
  | succ f ih =>
    intro curr inWord i h
    simp only [scanLoopReads] at h
    by_cases h1 : curr ≤ last_idx
    · rw [if_pos h1] at h
      rcases List.mem_cons.1 h with rfl | h
      · exact ⟨le_rfl, h1⟩
      · split_ifs at h
        all_goals first
          | exact ⟨by have hh := ih _ _ i h; omega, (ih _ _ i h).2⟩
          | cases h
    · rw [if_neg h1] at h
      cases h

/-- Every index `WorkThread` reads lies in `[0, last_idx]`. -/
theorem mem_WorkThreadReads (ti : thread_info) (input : List Nat) (h0 : 0 ≤ ti.start_idx)
    (h1 : ti.start_idx ≤ ti.end_idx) (h2 : ti.end_idx ≤ ti.last_idx) (i : Int)
    (hi : i ∈ WorkThreadReads ti input) : 0 ≤ i ∧ i ≤ ti.last_idx := by
  have hge := adjustedStart_ge ti input
  have hle : adjustedStart ti input ≤ ti.end_idx := by
    rcases adjustedStart_spec ti input with ⟨h, _⟩ | ⟨_, _, _, h, _⟩
    · rw [h]; exact h1
    · exact h h1
  unfold WorkThreadReads at hi
  simp only [List.mem_append] at hi
  rcases hi with ((hi | hi) | hi) | hi
  · obtain ⟨hne, h⟩ := mem_guardReads input _ i hi
    omega
  · split_ifs at hi
    · have := mem_fixStartReads input ti.end_idx _ _ i hi
      omega
    · cases hi
  · split_ifs at hi
    · obtain ⟨hne, h⟩ := mem_guardReads input _ i hi
      omega
    · cases hi
  · have := mem_scanLoopReads input ti.end_idx ti.last_idx _ _ _ i hi
    omega

/-- C20: for a buffer of `L ≥ 1` bytes and a worker range with
`0 ≤ start ≤ end ≤ last_idx = L - 1`, every index the worker reads lies in
`[0, L-1]`, the look-back at `start - 1` is not read when `start = 0`, and every span
passed to `chash_setAndInc` satisfies `0 ≤ word_start ≤ word_end ≤ last_idx`: the key
lies in the buffer, its length `word_end - word_start + 1` is at least 1, and the
call, on a table with at least one row whose row mutex is free and with the
allocation succeeding, returns `true`. -/
theorem C20_scanner_safety (ti : thread_info) (input : List Nat) (h0 : 0 ≤ ti.start_idx)
    (h1 : ti.start_idx ≤ ti.end_idx) (h2 : ti.end_idx ≤ ti.last_idx)
    (hlen : ti.last_idx + 1 = input.length) :
    (∀ i ∈ WorkThreadReads ti input, 0 ≤ i ∧ i ≤ ti.last_idx ∧ i.toNat < input.length) ∧
    (ti.start_idx = 0 → guardReads input ti.start_idx = []) ∧
    ∀ s e, (s, e) ∈ WorkThread ti input →
      0 ≤ s ∧ s ≤ e ∧ e ≤ ti.last_idx ∧ 1 ≤ (e - s + 1).toNat ∧
      (e - s + 1).toNat ≤ (input.drop s.toNat).length ∧
      ∀ t : chash, 1 ≤ t.size →
        t.row_locks.getD
          (hash (input.drop s.toNat) (e - s + 1).toNat % t.size) false = false →
        ∃ t1, chash_setAndInc (some t) (some (input.drop s.toNat)) (e - s + 1).toNat true =
          some (true, some t1) := by
  refine ⟨?_, ?_, ?_⟩
  · intro i hi
    obtain ⟨a, b⟩ := mem_WorkThreadReads ti input h0 h1 h2 i hi
    exact ⟨a, b, by omega⟩
  · intro hz
    simp [guardReads, hz]
  · intro s e hmem
    obtain ⟨a1, _, _, _, _, c1, c2, _, _⟩ := (WorkThread_mem ti input s e).1 hmem
    have hge := adjustedStart_ge ti input
    have hv : validSpan input (s, e) :=
      ⟨by show 0 ≤ s; omega, c1, by show e < (input.length : Int); omega⟩
    obtain ⟨_, hl2, hl3⟩ := spanBytes_length input (s, e) hv
    refine ⟨by omega, c1, c2, by omega, hl3, ?_⟩
    intro t hsize hfree
    obtain ⟨c1', hc1⟩ := walkRow_alloc (input.drop s.toNat) (e - s + 1).toNat
      (hash (input.drop s.toNat) (e - s + 1).toNat)
      (t.rows.getD (hash (input.drop s.toNat) (e - s + 1).toNat % t.size) [])
    rw [setAndInc_eq t _ _ true hl2 (by omega),
      if_neg (by rw [hfree]; exact Bool.false_ne_true), hc1]
    exact ⟨_, rfl⟩

set_option maxRecDepth 100000 in
/-- Witness of C20: worker 1 of scenario B, range [5,9] of the 20-byte buffer; it reads
the indices 5 and 6 to 12 and passes the span (7,11). -/
theorem C20_scanner_safety_witness :
    ((0 : Int) ≤ 5 ∧ (5 : Int) ≤ 9 ∧ (9 : Int) ≤ 19 ∧ (19 : Int) + 1 = bufferB.length) ∧
    ((∀ i ∈ WorkThreadReads { thread_id := 1, start_idx := 5, end_idx := 9, last_idx := 19 }
        bufferB, 0 ≤ i ∧ i ≤ 19 ∧ i.toNat < bufferB.length) ∧
    ((5 : Int) = 0 → guardReads bufferB 5 = []) ∧
    ∀ s e, (s, e) ∈ WorkThread { thread_id := 1, start_idx := 5, end_idx := 9, last_idx := 19 }
        bufferB →
      0 ≤ s ∧ s ≤ e ∧ e ≤ 19 ∧ 1 ≤ (e - s + 1).toNat ∧
      (e - s + 1).toNat ≤ (bufferB.drop s.toNat).length ∧
      ∀ t : chash, 1 ≤ t.size →
        t.row_locks.getD
          (hash (bufferB.drop s.toNat) (e - s + 1).toNat % t.size) false = false →
        ∃ t1, chash_setAndInc (some t) (some (bufferB.drop s.toNat)) (e - s + 1).toNat true =
          some (true, some t1)) ∧
    WorkThreadReads { thread_id := 1, start_idx := 5, end_idx := 9, last_idx := 19 } bufferB =
      [5, 5, 6, 7, 8, 9, 10, 11, 12, 13] ∧
    WorkThread { thread_id := 1, start_idx := 5, end_idx := 9, last_idx := 19 } bufferB =
      [(7, 11)] :=
  ⟨⟨by decide, by decide, by decide, by decide⟩,
   C20_scanner_safety { thread_id := 1, start_idx := 5, end_idx := 9, last_idx := 19 } bufferB
     (by decide) (by decide) (by decide) (by decide),
   by decide, by decide⟩
/-! ## Maximal runs -/

theorem readAt_natCast (input : List Nat) (n : Nat) : readAt input (n : Int) = input.getD n 0 := by
  simp [readAt]

theorem isWordAt_natCast (input : List Nat) (n : Nat) :
    isWordAt input (n : Int) = isWordChar (input.getD n 0) := by
  simp [isWordAt, readAt_natCast]

theorem isWordAt_lt_length (input : List Nat) (i : Int) (h : isWordAt input i = true) :
    0 ≤ i ∧ i < input.length := by
  by_contra hc
  have : readAt input i = 0 := by
    unfold readAt
    split_ifs with h0
    · have hlen : input.length ≤ i.toNat := by omega
      rw [List.getD_eq_getElem?_getD, List.getElem?_eq_none hlen]; rfl
    · rfl
  simp only [isWordAt, this] at h
  exact absurd h (by decide)

theorem isRunB_iff (input : List Nat) (s e : Nat) :
    isRunB input s e = true ↔
      s ≤ e ∧ e < input.length ∧
      (∀ i : Nat, s ≤ i → i ≤ e → isWordChar (input.getD i 0) = true) ∧
      (s = 0 ∨ isWordChar (input.getD (s - 1) 0) = false) ∧
      (e + 1 = input.length ∨ isWordChar (input.getD (e + 1) 0) = false) := by
  simp only [isRunB, Bool.and_eq_true, decide_eq_true_eq, List.all_eq_true, List.mem_range,
    Bool.or_eq_true, Bool.not_eq_true', beq_iff_eq, Bool.and_eq_false_iff, decide_eq_false_iff_not]
  constructor
  · rintro ⟨⟨⟨⟨h1, h2⟩, h3⟩, h4⟩, h5⟩
    refine ⟨h1, h2, ?_, h4, h5⟩
    intro i hi1 hi2
    rcases h3 i (by omega) with (h | h) | h
    · omega
    · omega
    · exact h
  · rintro ⟨h1, h2, h3, h4, h5⟩
    refine ⟨⟨⟨⟨h1, h2⟩, ?_⟩, h4⟩, h5⟩
    intro i _
    by_cases hi : s ≤ i ∧ i ≤ e
    · exact Or.inr (h3 i hi.1 hi.2)
    · by_cases hs : s ≤ i
      · exact Or.inl (Or.inr (fun h => hi ⟨hs, h⟩))
      · exact Or.inl (Or.inl hs)

/-- Membership in `maximalRuns`, in terms of the reads of the buffer. -/
theorem mem_maximalRuns (input : List Nat) (s e : Int) :
    (s, e) ∈ maximalRuns input ↔
      0 ≤ s ∧ s ≤ e ∧ e < input.length ∧
      (∀ i, s ≤ i → i ≤ e → isWordAt input i = true) ∧
      (s = 0 ∨ isWordAt input (s - 1) = false) ∧
      (e + 1 = input.length ∨ isWordAt input (e + 1) = false) := by
  simp only [maximalRuns, List.mem_map, List.mem_filter, List.pair_mem_product, List.mem_range,
    Prod.mk.injEq, Prod.exists, isRunB_iff]
  constructor
  · rintro ⟨a, b, ⟨⟨_, _⟩, h1, h2, h3, h4, h5⟩, rfl, rfl⟩
    refine ⟨by omega, by omega, by omega, ?_, ?_, ?_⟩
    · intro i hi1 hi2
      have hi : i = (i.toNat : Int) := by omega
      rw [hi, isWordAt_natCast]
      exact h3 i.toNat (by omega) (by omega)
    · rcases h4 with h4 | h4
      · exact Or.inl (by omega)
      · by_cases ha : a = 0
        · exact Or.inl (by omega)
        · right
          have : (a : Int) - 1 = ((a - 1 : Nat) : Int) := by omega
          rw [this, isWordAt_natCast]; exact h4
    · rcases h5 with h5 | h5
      · exact Or.inl (by omega)
      · right
        have : (b : Int) + 1 = ((b + 1 : Nat) : Int) := by omega
        rw [this, isWordAt_natCast]; exact h5
  · rintro ⟨h0, h1, h2, h3, h4, h5⟩
    refine ⟨s.toNat, e.toNat, ⟨⟨by omega, by omega⟩, by omega, by omega, ?_, ?_, ?_⟩,
      by omega, by omega⟩
    · intro i hi1 hi2
      rw [← isWordAt_natCast]
      exact h3 i (by omega) (by omega)
    · rcases h4 with h4 | h4
      · exact Or.inl (by omega)
      · by_cases ha : s = 0
        · exact Or.inl (by omega)
        · right
          rw [← isWordAt_natCast]
          have : ((s.toNat - 1 : Nat) : Int) = s - 1 := by omega
          rw [this]; exact h4
    · rcases h5 with h5 | h5
      · exact Or.inl (by omega)
      · right
        rw [← isWordAt_natCast]
        have : ((e.toNat + 1 : Nat) : Int) = e + 1 := by omega
        rw [this]; exact h5

theorem maximalRuns_nodup (input : List Nat) : (maximalRuns input).Nodup := by
  unfold maximalRuns
  apply List.Nodup.map
  · rintro ⟨a, b⟩ ⟨c, d⟩ h
    simp only [Prod.mk.injEq, Nat.cast_inj] at h
    rw [h.1, h.2]
  · exact ((List.nodup_range _).product (List.nodup_range _)).filter _
theorem extend_left (input : List Nat) : ∀ (n : Nat) (x : Int), x = n →
    isWordAt input x = true →
    ∃ s, 0 ≤ s ∧ s ≤ x ∧ (∀ i, s ≤ i → i ≤ x → isWordAt input i = true) ∧
      (s = 0 ∨ isWordAt input (s - 1) = false) := by
  intro n
  induction n with
  | zero =>
    intro x hx hw
    refine ⟨x, by omega, le_rfl, ?_, Or.inl (by omega)⟩
    intro i h1 h2
    have : i = x := by omega
    rw [this]; exact hw
  | succ m ih =>
    intro x hx hw
    by_cases hp : isWordAt input (x - 1) = true
    · obtain ⟨s, h0, h1, h2, h3⟩ := ih (x - 1) (by push_cast at hx; omega) hp
      refine ⟨s, h0, by omega, ?_, h3⟩
      intro i hi1 hi2
      by_cases hi : i = x
      · rw [hi]; exact hw
      · exact h2 i hi1 (by omega)
    · refine ⟨x, by omega, le_rfl, ?_, Or.inr (isWordAt_false_of_ne hp)⟩
      intro i h1 h2
      have : i = x := by omega
      rw [this]; exact hw

theorem extend_right (input : List Nat) : ∀ (n : Nat) (y : Int), (input.length : Int) - 1 - y = n →
    isWordAt input y = true →
    ∃ e, y ≤ e ∧ e < input.length ∧ (∀ i, y ≤ i → i ≤ e → isWordAt input i = true) ∧
      (e + 1 = input.length ∨ isWordAt input (e + 1) = false) := by
  intro n
  induction n with
  | zero =>
    intro y hy hw
    refine ⟨y, le_rfl, by omega, ?_, Or.inl (by omega)⟩
    intro i h1 h2
    have : i = y := by omega
    rw [this]; exact hw
  | succ m ih =>
    intro y hy hw
    by_cases hp : isWordAt input (y + 1) = true
    · obtain ⟨e, h0, h1, h2, h3⟩ := ih (y + 1) (by push_cast at hy; omega) hp
      refine ⟨e, by omega, h1, ?_, h3⟩
      intro i hi1 hi2
      by_cases hi : i = y
      · rw [hi]; exact hw
      · exact h2 i (by omega) hi2
    · refine ⟨y, le_rfl, by push_cast at hy; omega, ?_, Or.inr (isWordAt_false_of_ne hp)⟩
      intro i h1 h2
      have : i = y := by omega
      rw [this]; exact hw

/-- Every stretch of word characters lies inside a maximal run, so a bound on the
length of the maximal runs bounds every stretch. -/
theorem stretch_le (input : List Nat) (chunk : Int)
    (hruns : ∀ r ∈ maximalRuns input, r.2 - r.1 + 1 ≤ chunk) (x y : Int) (hxy : x ≤ y)
    (hall : ∀ i, x ≤ i → i ≤ y → isWordAt input i = true) : y - x + 1 ≤ chunk := by
  have hx := hall x le_rfl hxy
  have hy := hall y hxy le_rfl
  obtain ⟨hx0, _⟩ := isWordAt_lt_length input x hx
  obtain ⟨_, hyL⟩ := isWordAt_lt_length input y hy
  obtain ⟨s, s0, s1, s2, s3⟩ := extend_left input x.toNat x (by omega) hx
  obtain ⟨e, e0, e1, e2, e3⟩ := extend_right input ((input.length : Int) - 1 - y).toNat y
    (by omega) hy
  have hmem : (s, e) ∈ maximalRuns input := by
    rw [mem_maximalRuns]
    refine ⟨s0, by omega, e1, ?_, s3, e3⟩
    intro i hi1 hi2
    by_cases h1 : i ≤ x
    · exact s2 i hi1 h1
    · by_cases h2 : y ≤ i
      · exact e2 i h2 hi2
      · exact hall i (by omega) (by omega)
  have := hruns (s, e) hmem
  simp only at this
  omega
/-- A worker whose range holds at least `chunk` bytes, on a buffer whose maximal runs
hold at most `chunk` bytes and which does not end with a one-byte word, records
exactly the maximal runs that start in its range. -/
theorem WorkThread_runs (ti : thread_info) (input : List Nat) (chunk : Int)
    (h0 : 0 ≤ ti.start_idx) (h1 : ti.start_idx ≤ ti.end_idx) (h2 : ti.end_idx ≤ ti.last_idx)
    (hlast : ti.last_idx + 1 = input.length) (hsize : chunk ≤ ti.end_idx - ti.start_idx + 1)
    (hruns : ∀ r ∈ maximalRuns input, r.2 - r.1 + 1 ≤ chunk)
    (hend : isWordAt input ti.last_idx = false ∨
      (isWordAt input (ti.last_idx - 1) = true ∧ isWordAt input ti.last_idx = true))
    (s e : Int) :
    (s, e) ∈ WorkThread ti input ↔
      (s, e) ∈ maximalRuns input ∧ ti.start_idx ≤ s ∧ s ≤ ti.end_idx := by
  have hge := adjustedStart_ge ti input
  rw [WorkThread_mem, mem_maximalRuns]
  constructor
  · rintro ⟨a1, a2, a3, a4, a5, c1, c2, c3, c4⟩
    refine ⟨⟨by omega, c1, by omega, c3, ?_, ?_⟩, by omega, a2⟩
    · rcases a5 with a5 | a5
      · rcases adjustedStart_spec ti input with ⟨b1, b2⟩ | ⟨b1, b2, b3, b4, b5, b6⟩
        · rcases b2 with b2 | b2 | b2
          · exact Or.inl (by omega)
          · rw [a5, b1, b2] at a4; cases a4
          · right; rw [a5, b1]; exact b2
        · exfalso
          rcases b6 with b6 | b6
          · have hae : adjustedStart ti input = ti.end_idx := le_antisymm (b4 h1) b6
            have hstretch := stretch_le input chunk hruns (ti.start_idx - 1) ti.end_idx
              (by omega) (by
                intro i hi1 hi2
                by_cases hi : i = ti.start_idx - 1
                · rw [hi]; exact b2
                · by_cases hi' : i = ti.end_idx
                  · rw [hi', ← hae, ← a5]; exact a4
                  · exact b5 i (by omega) (by omega))
            omega
          · rw [← a5, a4] at b6; cases b6
      · exact Or.inr a5
    · rcases c4 with c4 | c4
      · exact Or.inl (by omega)
      · exact Or.inr c4
  · rintro ⟨⟨r0, r1, r2, r3, r4, r5⟩, hs1, hs2⟩
    have hws : isWordAt input s = true := r3 s le_rfl r1
    have has : adjustedStart ti input ≤ s := by
      rcases adjustedStart_spec ti input with ⟨b1, _⟩ | ⟨b1, b2, b3, b4, b5, b6⟩
      · omega
      · by_contra hlt
        have hprev : isWordAt input (s - 1) = true := by
          by_cases hi : s = ti.start_idx
          · rw [hi]; exact b2
          · exact b5 (s - 1) (by omega) (by omega)
        rcases r4 with r4 | r4
        · omega
        · rw [hprev] at r4; cases r4
    refine ⟨has, hs2, ?_, hws, ?_, r1, by omega, r3, ?_⟩
    · by_contra hge'
      have hsl : s = ti.last_idx := by omega
      have hel : e = ti.last_idx := by omega
      rcases hend with hend | ⟨hend1, hend2⟩
      · rw [← hsl, hws] at hend; cases hend
      · rcases r4 with r4 | r4
        · have := (isWordAt_lt_length input _ hend1).1
          omega
        · rw [hsl, hend1] at r4; cases r4
    · rcases r4 with r4 | r4
      · left
        rcases adjustedStart_spec ti input with ⟨b1, _⟩ | ⟨b1, _⟩
        · omega
        · omega
      · exact Or.inr r4
    · rcases r5 with r5 | r5
      · exact Or.inl (by omega)
      · exact Or.inr r5
/-! ## All workers of a partition -/

theorem partition_facts (L N : Int) (hL : 1 ≤ L) (hN : 1 ≤ N) (p : thread_info)
    (hp : p ∈ partition L N) :
    0 ≤ p.start_idx ∧ p.start_idx ≤ p.end_idx ∧ p.end_idx ≤ p.last_idx ∧ p.last_idx = L - 1 ∧
      L / min N L ≤ p.end_idx - p.start_idx + 1 := by
  have h1 : 1 ≤ min N L := le_min hN hL
  have hnL : min N L ≤ L := min_le_right _ _
  obtain ⟨hc, hm⟩ := chunk_facts L (min N L) h1 hnL
  obtain ⟨j, hj, rfl⟩ := (mem_partition L N hL hN p).1 hp
  obtain ⟨b1, b2, b3⟩ := rangeOf_bounds L _ h1 hnL j (by omega) hj
  refine ⟨b1, b2, b3, rfl, ?_⟩
  simp only [rangeOf]
  split_ifs with h
  · have h2 : (min N L - 1) * (L / min N L) = min N L * (L / min N L) - L / min N L := by ring
    rw [h, h2]
    omega
  · have : ((j : Int) + 1) * (L / min N L) = (j : Int) * (L / min N L) + L / min N L := by ring
    omega

theorem partition_covers (L N : Int) (hL : 1 ≤ L) (hN : 1 ≤ N) (i : Int) (hi0 : 0 ≤ i)
    (hiL : i ≤ L - 1) : ∃ p ∈ partition L N, p.start_idx ≤ i ∧ i ≤ p.end_idx := by
  have h1 : 1 ≤ min N L := le_min hN hL
  have hnL : min N L ≤ L := min_le_right _ _
  obtain ⟨hc, hm⟩ := chunk_facts L (min N L) h1 hnL
  by_cases hlast : i / (L / min N L) < min N L - 1
  · have hq0 : 0 ≤ i / (L / min N L) := Int.ediv_nonneg hi0 (by omega)
    refine ⟨rangeOf L (min N L) (i / (L / min N L)), ?_, ?_, ?_⟩
    · apply (mem_partition L N hL hN _).2
      refine ⟨(i / (L / min N L)).toNat, by omega, ?_⟩
      rw [Int.toNat_of_nonneg hq0]
    · simp only [rangeOf]
      exact Int.ediv_mul_le i (by omega)
    · have hne : ¬ i / (L / min N L) = min N L - 1 := by omega
      simp only [rangeOf, hne, if_false]
      have := Int.lt_ediv_add_one_mul_self i (show 0 < L / min N L by omega)
      omega
  · refine ⟨rangeOf L (min N L) (min N L - 1), ?_, ?_, ?_⟩
    · apply (mem_partition L N hL hN _).2
      refine ⟨(min N L - 1).toNat, by omega, ?_⟩
      rw [Int.toNat_of_nonneg (by omega)]
    · simp only [rangeOf]
      have h5 : (min N L - 1) * (L / min N L) ≤ i / (L / min N L) * (L / min N L) :=
        Int.mul_le_mul_of_nonneg_right (by omega) (by omega)
      have := Int.ediv_mul_le i (show L / min N L ≠ 0 by omega)
      omega
    · simp [rangeOf, hiL]

theorem partition_disjoint (L N : Int) (hL : 1 ≤ L) (hN : 1 ≤ N) :
    (partition L N).Pairwise (fun a b => a.end_idx < b.start_idx) := by
  have h1 : 1 ≤ min N L := le_min hN hL
  have hnL : min N L ≤ L := min_le_right _ _
  obtain ⟨hc, hm⟩ := chunk_facts L (min N L) h1 hnL
  rw [partition_eq L N hL hN, List.pairwise_map]
  refine (List.pairwise_lt_range _).imp_of_mem ?_
  intro a b _ hb hab
  have hbn : b < (min N L).toNat := List.mem_range.1 hb
  simp only [rangeOf]
  have h6 : ((a : Int) + 1) * (L / min N L) ≤ (b : Int) * (L / min N L) :=
    Int.mul_le_mul_of_nonneg_right (by omega) (by omega)
  split_ifs with h
  · omega
  · omega

theorem allTokens_eq_map (tis : List thread_info) (input : List Nat) :
    allTokens tis input =
      ((tis.map fun p => WorkThread p input).flatten).map (spanBytes input) := by
  simp only [allTokens, workerTokens, List.map_flatten, List.map_map]
  rfl

/-- C18: for a buffer of `L ≥ 1` bytes and `1 ≤ N ≤ L` workers, if every maximal run
of word characters holds at most `L / N` bytes and the buffer does not end with a
one-byte word, then every worker records exactly the maximal runs whose first byte
lies in its range, each once, and the tokens recorded by all workers together are,
as a multiset, the maximal runs of the buffer. -/
theorem C18_conditional_conservation (input : List Nat) (N : Int) (hN : 1 ≤ N)
    (hNL : N ≤ input.length)
    (hruns : ∀ r ∈ maximalRuns input, r.2 - r.1 + 1 ≤ (input.length : Int) / N)
    (hend : isWordAt input ((input.length : Int) - 1) = false ∨
      (isWordAt input ((input.length : Int) - 2) = true ∧
        isWordAt input ((input.length : Int) - 1) = true)) :
    (∀ p ∈ partition input.length N, ∀ s e,
      (s, e) ∈ WorkThread p input ↔
        (s, e) ∈ maximalRuns input ∧ p.start_idx ≤ s ∧ s ≤ p.end_idx) ∧
    (∀ p ∈ partition input.length N, (WorkThread p input).Nodup) ∧
    ((partition input.length N).map fun p => WorkThread p input).flatten.Perm
      (maximalRuns input) ∧
    (allTokens (partition input.length N) input).Perm
      ((maximalRuns input).map (spanBytes input)) := by
  have hL : (1 : Int) ≤ input.length := by omega
  have hmin : min N (input.length : Int) = N := min_eq_left hNL
  have hworker : ∀ p ∈ partition input.length N, ∀ s e,
      (s, e) ∈ WorkThread p input ↔
        (s, e) ∈ maximalRuns input ∧ p.start_idx ≤ s ∧ s ≤ p.end_idx := by
    intro p hp s e
    obtain ⟨b0, b1, b2, b3, b4⟩ := partition_facts _ N hL hN p hp
    rw [hmin] at b4
    apply WorkThread_runs p input ((input.length : Int) / N) b0 b1 b2 (by omega) b4 hruns
    rw [b3]
    rcases hend with h | ⟨h, h'⟩
    · exact Or.inl h
    · exact Or.inr ⟨by rw [show (input.length : Int) - 1 - 1 = input.length - 2 by omega]; exact h,
        h'⟩
  have hperm : ((partition input.length N).map fun p => WorkThread p input).flatten.Perm
      (maximalRuns input) := by
    rw [List.perm_ext_iff_of_nodup ?_ (maximalRuns_nodup input)]
    · rintro ⟨s, e⟩
      simp only [List.mem_flatten, List.mem_map]
      constructor
      · rintro ⟨l, ⟨p, hp, rfl⟩, hmem⟩
        exact ((hworker p hp s e).1 hmem).1
      · intro hmem
        obtain ⟨r0, r1, r2, _⟩ := (mem_maximalRuns input s e).1 hmem
        obtain ⟨p, hp, hp1, hp2⟩ := partition_covers _ N hL hN s r0 (by omega)
        exact ⟨_, ⟨p, hp, rfl⟩, (hworker p hp s e).2 ⟨hmem, hp1, hp2⟩⟩
    · rw [List.nodup_flatten]
      constructor
      · intro l hl
        obtain ⟨p, _, rfl⟩ := List.mem_map.1 hl
        exact WorkThread_nodup p input
      · rw [List.pairwise_map]
        refine (partition_disjoint _ N hL hN).imp_of_mem ?_
        intro p q hp hq hpq
        rintro ⟨s, e⟩ hsp hsq
        have := ((hworker p hp s e).1 hsp).2
        have := ((hworker q hq s e).1 hsq).2
        omega
  refine ⟨hworker, fun p _ => WorkThread_nodup p input, hperm, ?_⟩
  rw [allTokens_eq_map]
  exact hperm.map _
set_option maxRecDepth 100000 in
/-- Witness of C18: scenario A, 7 bytes and 2 workers; the maximal runs abc and abc
hold 3 bytes each, `7 / 2 = 3`, and the last two bytes are word characters. -/
theorem C18_conditional_conservation_witness :
    ((1 : Int) ≤ 2 ∧ (2 : Int) ≤ bufferA.length ∧
      (∀ r ∈ maximalRuns bufferA, r.2 - r.1 + 1 ≤ (bufferA.length : Int) / 2) ∧
      (isWordAt bufferA ((bufferA.length : Int) - 1) = false ∨
        (isWordAt bufferA ((bufferA.length : Int) - 2) = true ∧
          isWordAt bufferA ((bufferA.length : Int) - 1) = true))) ∧
    ((∀ p ∈ partition bufferA.length 2, ∀ s e,
      (s, e) ∈ WorkThread p bufferA ↔
        (s, e) ∈ maximalRuns bufferA ∧ p.start_idx ≤ s ∧ s ≤ p.end_idx) ∧
    (∀ p ∈ partition bufferA.length 2, (WorkThread p bufferA).Nodup) ∧
    ((partition bufferA.length 2).map fun p => WorkThread p bufferA).flatten.Perm
      (maximalRuns bufferA) ∧
    (allTokens (partition bufferA.length 2) bufferA).Perm
      ((maximalRuns bufferA).map (spanBytes bufferA))) ∧
    maximalRuns bufferA = [(0, 2), (4, 6)] ∧
    (partition 7 2).map (fun p => WorkThread p bufferA) = [[(0, 2)], [(4, 6)]] :=
  ⟨⟨by decide, by decide, by decide, by decide⟩,
   C18_conditional_conservation bufferA 2 (by decide) (by decide) (by decide) (by decide),
   by decide, by decide⟩
end MapReduce
